import Mathlib

/-!
Verification of the `badfs` fault-injection filesystem wrapper.

The development shallowly embeds the Go sources of the repository:

* namespace `Badfs` — the current revision of the wrapper
  (the `BadFs` facade with plain `map[string]error` rule registries,
  `normalizePath` based on `filepath.Clean`, and the `BadFile`
  handle facade from `file.go`);
* namespace `RndBadfs` — the earlier revision kept in `bad.go`/`errors.go`,
  whose registries store `*RandomError` values carrying a probability.

Go `map[string]V` values are modelled as association lists
(`List (String × V)`): lookup returns the first binding, insertion
overwrites in place or appends, deletion removes the binding, and
iteration order is the list order (Go's randomized map iteration order is
fixed to registration order here).  A Go interface value of type `error`
is `Option GoError` (`none` is the `nil` interface).  `time.Duration`
(an `int64`) is `Int`.  Wall-clock sleeping is modelled by recording the
slept durations in a trace; provider (wrapped filesystem) calls are
modelled by a `delegated` flag plus a parameter giving the provider's
hypothetical result for the call.
-/

/-- Identity of a Go `error` value.  Caller-registered errors are `user n`;
the remaining constructors are the error values the wrapper itself creates. -/
inductive GoError where
  | user : Nat → GoError
  | provider : Nat → GoError
  | noSymlink : String → String → GoError
  | noReadlink : String → GoError
  | invalidLatency : GoError
  | notRegistered : String → GoError
  | noLatency : String → GoError
deriving DecidableEq, Repr

/-- A Go `error` interface value; `none` is the nil interface. -/
abbrev GoErr := Option GoError

/-- Lookup in a Go map modelled as an association list (first binding wins). -/
def mapLookup? (m : List (String × α)) (k : String) : Option α :=
  (m.find? (fun q => q.1 = k)).map (·.2)

/-- Go map read with the zero-value default (`m[k]` when `k` may be absent). -/
def mapLookupD (m : List (String × α)) (k : String) (d : α) : α :=
  (mapLookup? m k).getD d

/-- Go map assignment `m[k] = v`: overwrite in place, else append. -/
def mapInsert (m : List (String × α)) (k : String) (v : α) : List (String × α) :=
  if (m.find? (fun q => q.1 = k)).isSome then
    m.map (fun q => if q.1 = k then (k, v) else q)
  else m ++ [(k, v)]

/-- Go `delete(m, k)`. -/
def mapErase (m : List (String × α)) (k : String) : List (String × α) :=
  m.filter (fun q => q.1 ≠ k)

/-!
## `filepath.Clean`

`normalizePath` in the wrapper is `filepath.Clean`.  The embedding below
follows Go's `path/filepath.Clean` for the unix separator `'/'`
byte-for-byte (for ASCII paths, Go's byte indexing and `Char` indexing
agree; multi-byte UTF-8 sequences contain no ASCII bytes, so comparisons
against `'/'` and `'.'` coincide as well).  The output buffer (`lazybuf`)
is kept in reverse order: appending a character conses it.
-/

/-- The backtracking loop in `Clean`'s `..` case: `out.w` has just been
decremented, popping `popped`; keep popping while `out.w > dotdot` and the
last popped character is not a separator.  (`rest` is the reversed buffer
below the write cursor.) -/
def popSegAux (popped : Char) (rest : List Char) (dd : Nat) : List Char :=
  match rest with
  | [] => []
  | c :: cs => if dd < cs.length + 1 ∧ popped ≠ '/' then popSegAux c cs dd else c :: cs

/-- `Clean`'s `case out.w > dotdot` backtracking (`out` is the reversed buffer). -/
def popSeg (out : List Char) (dd : Nat) : List Char :=
  match out with
  | [] => []
  | c :: cs => popSegAux c cs dd

/-- The main loop of `filepath.Clean`, with explicit fuel (structural
recursion so that concrete instances evaluate); `p` is the unread input,
`out` the reversed output buffer, `dd` the `dotdot` barrier.  The fuel is
never exhausted when `p.length ≤ fuel`. -/
def cleanLoopF : Nat → List Char → Bool → List Char → Nat → List Char
  | 0, _, _, out, _ => out
  | fuel + 1, p, rooted, out, dd =>
    match p with
    | [] => out
    | c :: rest =>
      if c = '/' then cleanLoopF fuel rest rooted out dd
      else if c = '.' ∧ (rest = [] ∨ rest.head? = some '/') then
        cleanLoopF fuel rest rooted out dd
      else if c = '.' ∧ rest.head? = some '.' ∧ (rest.tail = [] ∨ rest.tail.head? = some '/') then
        let step : List Char × Nat :=
          if dd < out.length then (popSeg out dd, dd)
          else if rooted = false then
            let out2 := '.' :: '.' :: (if out.length ≠ 0 then '/' :: out else out)
            (out2, out2.length)
          else (out, dd)
        cleanLoopF fuel rest.tail rooted step.1 step.2
      else
        let out1 := if (rooted = true ∧ out.length ≠ 1) ∨ (rooted = false ∧ out.length ≠ 0)
          then '/' :: out else out
        cleanLoopF fuel (rest.dropWhile (· ≠ '/')) rooted
          ((rest.takeWhile (· ≠ '/')).reverse ++ c :: out1) dd

/-- The main loop of `filepath.Clean` (fuel instantiated). -/
def cleanLoop (p : List Char) (rooted : Bool) (out : List Char) (dd : Nat) : List Char :=
  cleanLoopF p.length p rooted out dd

/-- Go's `filepath.Clean` on a character list. -/
def goCleanList (cs : List Char) : List Char :=
  if cs = [] then ['.']
  else
    let rooted := cs.head? = some '/'
    let out := if rooted then cleanLoop cs.tail true ['/'] 1 else cleanLoop cs false [] 0
    if out.length = 0 then ['.'] else out.reverse

/-- `normalizePath` from the wrapper: `filepath.Clean`. -/
def normalizePath (s : String) : String :=
  ⟨goCleanList s.data⟩

/-!
### Characterization of cleaned paths

Outputs of `Clean` are `"."` or rendered from a stack: an optional root,
a run of leading `".."` segments (only when unrooted), and a list of
ordinary segments (nonempty, separator-free, none of them `"."` or
`".."`).  This characterization yields idempotence of `normalizePath`,
which the wrapper relies on (operations normalize an already-normalized
argument before consulting the registry).
-/

/-- A rendered path segment that `Clean` keeps verbatim. -/
def goodSeg (s : List Char) : Prop :=
  s ≠ [] ∧ (∀ c ∈ s, c ≠ '/') ∧ s ≠ ['.'] ∧ s ≠ ['.', '.']

/-- Join segments with `'/'`. -/
def joinSegs : List (List Char) → List Char
  | [] => []
  | [s] => s
  | s :: rest => s ++ '/' :: joinSegs rest

/-- Abstract state of `Clean`'s output buffer: rootedness, number of
leading `".."` segments, and the remaining segments. -/
structure Stk where
  rooted : Bool
  dds : Nat
  segs : List (List Char)

/-- `n` copies of the `".."` segment. -/
def ddSegs (n : Nat) : List (List Char) := List.replicate n ['.', '.']

/-- Forward rendering of a stack. -/
def Stk.render (st : Stk) : List Char :=
  if st.rooted then '/' :: joinSegs st.segs
  else joinSegs (ddSegs st.dds ++ st.segs)

/-- The `dotdot` barrier value corresponding to a stack. -/
def Stk.ddVal (st : Stk) : Nat :=
  if st.rooted then 1 else (joinSegs (ddSegs st.dds)).length

/-- Well-formed stack: rooted stacks have no `".."` run, and every kept
segment is a `goodSeg`. -/
def goodStk (st : Stk) : Prop :=
  (st.rooted = true → st.dds = 0) ∧ ∀ s ∈ st.segs, goodSeg s

theorem dropWhile_length_le (p : α → Bool) (l : List α) :
    (l.dropWhile p).length ≤ l.length := by
  induction l with
  | nil => simp
  | cons a l ih =>
    rw [List.dropWhile_cons]
    split
    · exact le_trans ih (Nat.le_succ _)
    · exact le_refl _

theorem cleanLoopF_nil (fuel : Nat) (r : Bool) (out : List Char) (dd : Nat) :
    cleanLoopF fuel [] r out dd = out := by
  cases fuel <;> rfl

theorem cleanLoopF_fuel : ∀ fuel fuel' (p : List Char) (r : Bool) (out : List Char) (dd : Nat),
    p.length ≤ fuel → p.length ≤ fuel' →
    cleanLoopF fuel p r out dd = cleanLoopF fuel' p r out dd := by
  intro fuel
  induction fuel with
  | zero =>
    intro fuel' p r out dd h _
    have : p = [] := List.length_eq_zero.mp (Nat.le_zero.mp h)
    subst this
    rw [cleanLoopF_nil, cleanLoopF_nil]
  | succ f ih =>
    intro fuel' p r out dd h h'
    match p with
    | [] => rw [cleanLoopF_nil, cleanLoopF_nil]
    | c :: rest =>
      match fuel' with
      | 0 => exact absurd h' (by simp)
      | f' + 1 =>
        simp only [cleanLoopF]
        have hr : rest.length ≤ f := by simpa using h
        have hr' : rest.length ≤ f' := by simpa using h'
        split
        · exact ih f' rest r out dd hr hr'
        · split
          · exact ih f' rest r out dd hr hr'
          · split
            · have ht : rest.tail.length ≤ rest.length := by
                cases rest <;> simp
              exact ih f' rest.tail r _ _ (le_trans ht hr) (le_trans ht hr')
            · exact ih f' (rest.dropWhile (· ≠ '/')) r _ _
                (le_trans (dropWhile_length_le _ rest) hr)
                (le_trans (dropWhile_length_le _ rest) hr')

theorem joinSegs_cons_of_ne (s : List Char) (rest : List (List Char)) (h : rest ≠ []) :
    joinSegs (s :: rest) = s ++ '/' :: joinSegs rest := by
  cases rest with
  | nil => exact absurd rfl h
  | cons t ts => rfl

theorem joinSegs_append (a b : List (List Char)) (hb : b ≠ []) :
    joinSegs (a ++ b) = if a = [] then joinSegs b else joinSegs a ++ '/' :: joinSegs b := by
  induction a with
  | nil => simp
  | cons s a ih =>
    have hne : a ++ b ≠ [] := by
      intro hc
      exact hb (List.append_eq_nil.mp hc).2
    rw [List.cons_append, joinSegs_cons_of_ne s (a ++ b) hne, ih]
    by_cases ha : a = []
    · subst ha
      simp [joinSegs]
    · simp only [ha, if_neg, if_false]
      rw [joinSegs_cons_of_ne s a ha]
      simp

theorem joinSegs_eq_nil_iff (segs : List (List Char)) (hg : ∀ s ∈ segs, s ≠ []) :
    joinSegs segs = [] ↔ segs = [] := by
  constructor
  · intro h
    cases segs with
    | nil => rfl
    | cons s rest =>
      exfalso
      cases rest with
      | nil =>
        exact hg s (by simp) h
      | cons t ts =>
        have : joinSegs (s :: t :: ts) = s ++ '/' :: joinSegs (t :: ts) := rfl
        rw [this] at h
        exact hg s (by simp) (List.append_eq_nil.mp h).1
  · intro h; subst h; rfl

theorem joinSegs_length_le (a b : List (List Char)) :
    (joinSegs a).length ≤ (joinSegs (a ++ b)).length := by
  by_cases hb : b = []
  · subst hb; simp
  · rw [joinSegs_append a b hb]
    by_cases ha : a = []
    · subst ha
      simp [joinSegs]
    · simp [ha]

theorem ddSegs_succ (n : Nat) : ddSegs (n + 1) = ddSegs n ++ [['.', '.']] := by
  simp [ddSegs, List.replicate_succ']

theorem ddSegs_mem_ne_nil (n : Nat) : ∀ s ∈ ddSegs n, s ≠ [] := by
  intro s hs
  rw [List.eq_of_mem_replicate hs]
  simp

/-- Popping stops when the popped character is the separator: everything of
the reversed segment `u` and the separator are discarded, the rest is kept. -/
theorem popSegAux_sep (u : List Char) : ∀ (c : Char) (R : List Char) (dd : Nat),
    c ≠ '/' → (∀ x ∈ u, x ≠ '/') → dd ≤ R.length →
    popSegAux c (u ++ '/' :: R) dd = R := by
  induction u with
  | nil =>
    intro c R dd hc _ hdd
    simp only [List.nil_append, popSegAux]
    rw [if_pos ⟨by simpa using Nat.lt_succ_of_le hdd, hc⟩]
    cases R with
    | nil => rfl
    | cons r rs =>
      simp only [popSegAux]
      rw [if_neg (by simp)]
  | cons x u ih =>
    intro c R dd hc hu hdd
    simp only [List.cons_append, popSegAux]
    rw [if_pos ⟨by simp; omega, hc⟩]
    exact ih x R dd (hu x (by simp)) (fun y hy => hu y (by simp [hy])) hdd

/-- Popping stops at the `dotdot` barrier: the reversed segment `u` is
discarded and the barrier-protected rest `R` is kept. -/
theorem popSegAux_barrier (u : List Char) : ∀ (c : Char) (R : List Char),
    c ≠ '/' → (∀ x ∈ u, x ≠ '/') → popSegAux c (u ++ R) R.length = R := by
  induction u with
  | nil =>
    intro c R _ _
    simp only [List.nil_append]
    cases R with
    | nil => rfl
    | cons r rs =>
      simp only [popSegAux]
      rw [if_neg (by simp)]
  | cons x u ih =>
    intro c R hc hu
    simp only [List.cons_append, popSegAux]
    rw [if_pos ⟨by simp; omega, hc⟩]
    exact ih x R (hu x (by simp)) (fun y hy => hu y (by simp [hy]))

theorem joinSegs_length_pos (segs : List (List Char)) (hs : segs ≠ [])
    (hne : ∀ s ∈ segs, s ≠ []) : 0 < (joinSegs segs).length := by
  have : joinSegs segs ≠ [] := fun hc => hs ((joinSegs_eq_nil_iff segs hne).mp hc)
  exact List.length_pos.mpr this

theorem ddVal_lt_render_iff (st : Stk) (hst : goodStk st) :
    st.ddVal < (st.render).length ↔ st.segs ≠ [] := by
  obtain ⟨hroot, hsegs⟩ := hst
  have hne : ∀ s ∈ st.segs, s ≠ [] := fun s hs => (hsegs s hs).1
  cases hr : st.rooted with
  | true =>
    simp only [Stk.render, Stk.ddVal, hr, if_pos, List.length_cons]
    by_cases hs : st.segs = []
    · rw [hs]
      simp [joinSegs]
    · have := joinSegs_length_pos st.segs hs hne
      exact iff_of_true (by omega) hs
  | false =>
    simp only [Stk.render, Stk.ddVal, hr, Bool.false_eq_true, if_neg, not_false_iff]
    by_cases hs : st.segs = []
    · rw [hs]
      simp
    · rw [joinSegs_append _ _ hs]
      have hjsl : 0 < (joinSegs st.segs).length := joinSegs_length_pos st.segs hs hne
      by_cases hd : ddSegs st.dds = []
      · simp only [hd, if_pos]
        simp only [joinSegs, hd, List.length_nil]
        exact iff_of_true hjsl hs
      · simp only [hd, if_neg, if_false]
        simp only [List.length_append, List.length_cons]
        exact iff_of_true (by omega) hs

/-- Splitting a nonempty separator-free segment `t` off the reversed buffer. -/
theorem reverse_seg_cons (t : List Char) (ht : t ≠ []) (htsl : ∀ c ∈ t, c ≠ '/') :
    ∃ c u, t.reverse = c :: u ∧ c ≠ '/' ∧ ∀ x ∈ u, x ≠ '/' := by
  obtain ⟨c, u, hcu⟩ : ∃ c u, t.reverse = c :: u := by
    cases hrev : t.reverse with
    | nil => exact absurd (by simpa using hrev) ht
    | cons c u => exact ⟨c, u, rfl⟩
  refine ⟨c, u, hcu, htsl c ?_, fun x hx => htsl x ?_⟩
  · have : c ∈ t.reverse := by rw [hcu]; simp
    simpa using this
  · have : x ∈ t.reverse := by rw [hcu]; simp [hx]
    simpa using this

/-- Backtracking a reversed buffer `R ++ '/' :: t` removes the final
segment and the separator (stop at the separator). -/
theorem popSeg_sep (R t : List Char) (dd : Nat) (ht : t ≠ [])
    (htsl : ∀ c ∈ t, c ≠ '/') (hdd : dd ≤ R.length) :
    popSeg (R ++ '/' :: t).reverse dd = R.reverse := by
  obtain ⟨c, u, hcu, hc, hu⟩ := reverse_seg_cons t ht htsl
  have hrev : (R ++ '/' :: t).reverse = t.reverse ++ '/' :: R.reverse := by simp
  rw [hrev, hcu]
  show popSegAux c (u ++ '/' :: R.reverse) dd = R.reverse
  exact popSegAux_sep u c _ dd hc hu (by simpa using hdd)

/-- Backtracking a reversed buffer `P ++ t` with barrier `P.length` removes
the final segment and stops exactly at the barrier. -/
theorem popSeg_barrier (P t : List Char) (ht : t ≠ [])
    (htsl : ∀ c ∈ t, c ≠ '/') :
    popSeg (P ++ t).reverse P.length = P.reverse := by
  obtain ⟨c, u, hcu, hc, hu⟩ := reverse_seg_cons t ht htsl
  have hrev : (P ++ t).reverse = t.reverse ++ P.reverse := by simp
  rw [hrev, hcu]
  show popSegAux c (u ++ P.reverse) P.length = P.reverse
  have := popSegAux_barrier u c P.reverse hc hu
  simpa using this

theorem popSeg_render (st : Stk) (init : List (List Char)) (t : List Char)
    (hsegs : st.segs = init ++ [t]) (hst : goodStk st) :
    popSeg (st.render).reverse st.ddVal = (Stk.mk st.rooted st.dds init).render.reverse := by
  obtain ⟨hroot, hgood⟩ := hst
  have ht : goodSeg t := hgood t (by rw [hsegs]; simp)
  obtain ⟨htne, htsl, _, _⟩ := ht
  cases hr : st.rooted with
  | true =>
    simp only [Stk.render, Stk.ddVal, hr, if_pos, hsegs]
    by_cases hi : init = []
    · subst hi
      have h1 : ('/' :: joinSegs [t]) = ['/'] ++ t := by
        show '/' :: t = _
        rfl
      rw [List.nil_append, h1]
      have := popSeg_barrier ['/'] t htne htsl
      simpa [joinSegs] using this
    · rw [joinSegs_append init [t] (by simp), if_neg hi]
      have h1 : ('/' :: (joinSegs init ++ '/' :: joinSegs [t]))
          = ('/' :: joinSegs init) ++ '/' :: t := by
        show _ = '/' :: (joinSegs init ++ '/' :: t)
        rfl
      rw [h1]
      have := popSeg_sep ('/' :: joinSegs init) t 1 htne htsl (by simp)
      simpa using this
  | false =>
    simp only [Stk.render, Stk.ddVal, hr, Bool.false_eq_true, if_neg, not_false_iff, hsegs]
    rw [← List.append_assoc]
    by_cases hB : ddSegs st.dds ++ init = []
    · rw [hB]
      obtain ⟨hd0, _⟩ := List.append_eq_nil.mp hB
      have hdd0 : (joinSegs (ddSegs st.dds)).length = 0 := by
        rw [hd0]
        rfl
      rw [hdd0]
      have h1 : joinSegs [t] = [] ++ t := by
        show t = _
        simp
      rw [List.nil_append, h1]
      have := popSeg_barrier [] t htne htsl
      simpa [joinSegs] using this
    · rw [joinSegs_append _ [t] (by simp), if_neg hB]
      have h2 : joinSegs [t] = t := rfl
      rw [h2]
      exact popSeg_sep (joinSegs (ddSegs st.dds ++ init)) t _ htne htsl
        (joinSegs_length_le (ddSegs st.dds) init)

theorem render_push (st : Stk) (seg : List Char) (hst : goodStk st) (_hsegne : seg ≠ []) :
    seg.reverse ++ (if (st.rooted = true ∧ (st.render).reverse.length ≠ 1)
        ∨ (st.rooted = false ∧ (st.render).reverse.length ≠ 0)
      then '/' :: (st.render).reverse else (st.render).reverse)
    = (Stk.mk st.rooted st.dds (st.segs ++ [seg])).render.reverse := by
  obtain ⟨r, dds, segs⟩ := st
  obtain ⟨hroot, hgood⟩ := hst
  have hne : ∀ s ∈ segs, s ≠ [] := fun s hs => (hgood s hs).1
  cases r with
  | true =>
    have hdd : dds = 0 := hroot rfl
    subst hdd
    have hrend : (Stk.mk true 0 segs).render = '/' :: joinSegs segs := by
      simp [Stk.render]
    have hrend2 : (Stk.mk true 0 (segs ++ [seg])).render = '/' :: joinSegs (segs ++ [seg]) := by
      simp [Stk.render]
    rw [hrend, hrend2]
    by_cases hs : segs = []
    · subst hs
      rw [if_neg (by simp [joinSegs])]
      simp [joinSegs]
    · rw [if_pos (by
        left
        refine ⟨rfl, ?_⟩
        have := joinSegs_length_pos segs hs hne
        simp only [List.length_reverse, List.length_cons]
        omega)]
      rw [joinSegs_append segs [seg] (by simp), if_neg hs]
      have h2 : joinSegs [seg] = seg := rfl
      rw [h2]
      simp
  | false =>
    have hrend : (Stk.mk false dds segs).render = joinSegs (ddSegs dds ++ segs) := by
      simp [Stk.render]
    have hrend2 : (Stk.mk false dds (segs ++ [seg])).render
        = joinSegs (ddSegs dds ++ (segs ++ [seg])) := by
      simp [Stk.render]
    rw [hrend, hrend2, ← List.append_assoc]
    by_cases hB : ddSegs dds ++ segs = []
    · rw [hB]
      rw [if_neg (by simp [hB, joinSegs])]
      simp [joinSegs]
    · have hBne : ∀ s ∈ ddSegs dds ++ segs, s ≠ [] := by
        intro s hs
        rcases List.mem_append.mp hs with h | h
        · exact ddSegs_mem_ne_nil _ s h
        · exact hne s h
      rw [if_pos (by
        right
        refine ⟨rfl, ?_⟩
        have := joinSegs_length_pos _ hB hBne
        simp only [List.length_reverse]
        omega)]
      rw [joinSegs_append _ [seg] (by simp), if_neg hB]
      have h2 : joinSegs [seg] = seg := rfl
      rw [h2]
      simp

theorem render_ddpush (st : Stk) (hr : st.rooted = false) (hsegs : st.segs = []) :
    ('.' :: '.' :: (if (st.render).reverse.length ≠ 0
        then '/' :: (st.render).reverse else (st.render).reverse))
      = (Stk.mk false (st.dds + 1) []).render.reverse
    ∧ ('.' :: '.' :: (if (st.render).reverse.length ≠ 0
        then '/' :: (st.render).reverse else (st.render).reverse)).length
      = (Stk.mk false (st.dds + 1) []).ddVal := by
  have hrender : st.render = joinSegs (ddSegs st.dds) := by
    simp [Stk.render, hr, hsegs]
  have hr2 : (Stk.mk false (st.dds + 1) []).render = joinSegs (ddSegs (st.dds + 1)) := by
    simp [Stk.render]
  have hdv : (Stk.mk false (st.dds + 1) []).ddVal = (joinSegs (ddSegs (st.dds + 1))).length := by
    simp [Stk.ddVal]
  by_cases hd : st.dds = 0
  · rw [hrender, hr2, hdv, hd]
    constructor <;> decide
  · have hdne : ddSegs st.dds ≠ [] := by
      simp [ddSegs, List.replicate_eq_nil_iff, hd]
    have hjne : joinSegs (ddSegs st.dds) ≠ [] :=
      fun hc => hdne ((joinSegs_eq_nil_iff _ (ddSegs_mem_ne_nil _)).mp hc)
    have hlen : (st.render).reverse.length ≠ 0 := by
      rw [hrender]
      simpa using fun hc => hjne (List.eq_nil_of_length_eq_zero hc)
    rw [if_pos hlen]
    have hnext : joinSegs (ddSegs (st.dds + 1))
        = joinSegs (ddSegs st.dds) ++ '/' :: ['.', '.'] := by
      rw [ddSegs_succ, joinSegs_append _ _ (by simp), if_neg hdne]
      rfl
    constructor
    · rw [hr2, hnext, hrender]
      simp
    · rw [hdv, hnext, hrender]
      simp


/-- Members of `dropLast` are members. -/
theorem mem_of_mem_dropLast {l : List α} {s : α} (h : s ∈ l.dropLast) : s ∈ l := by
  cases hl : l.length with
  | zero =>
    rw [List.eq_nil_of_length_eq_zero hl] at h
    simp at h
  | succ n =>
    have hne : l ≠ [] := by
      intro hc
      rw [hc] at hl
      simp at hl
    have := List.dropLast_append_getLast hne
    rw [← this]
    exact List.mem_append_left _ h

/-- Invariant of `Clean`'s main loop: started from the reversed rendering of
a well-formed stack with the matching barrier, it ends in the reversed
rendering of a well-formed stack with the same rootedness. -/
theorem cleanLoopF_spec : ∀ (fuel : Nat) (p : List Char) (st : Stk),
    p.length ≤ fuel → goodStk st →
    ∃ st2, goodStk st2 ∧ st2.rooted = st.rooted ∧
      cleanLoopF fuel p st.rooted (st.render).reverse st.ddVal = (st2.render).reverse := by
  intro fuel
  induction fuel with
  | zero =>
    intro p st h hst
    have hp : p = [] := List.length_eq_zero.mp (Nat.le_zero.mp h)
    subst hp
    exact ⟨st, hst, rfl, by rw [cleanLoopF_nil]⟩
  | succ f ih =>
    intro p st h hst
    match p with
    | [] => exact ⟨st, hst, rfl, by rw [cleanLoopF_nil]⟩
    | c :: rest =>
      have hrl : rest.length ≤ f := by simpa using h
      by_cases h1 : c = '/'
      · have hstep : cleanLoopF (f + 1) (c :: rest) st.rooted (st.render).reverse st.ddVal
            = cleanLoopF f rest st.rooted (st.render).reverse st.ddVal := by
          simp only [cleanLoopF]
          rw [if_pos h1]
        rw [hstep]
        exact ih rest st hrl hst
      · by_cases h2 : c = '.' ∧ (rest = [] ∨ rest.head? = some '/')
        · have hstep : cleanLoopF (f + 1) (c :: rest) st.rooted (st.render).reverse st.ddVal
              = cleanLoopF f rest st.rooted (st.render).reverse st.ddVal := by
            simp only [cleanLoopF]
            rw [if_neg h1, if_pos h2]
          rw [hstep]
          exact ih rest st hrl hst
        · by_cases h3 : c = '.' ∧ rest.head? = some '.'
              ∧ (rest.tail = [] ∨ rest.tail.head? = some '/')
          · -- the ".." case
            have hrtl : rest.tail.length ≤ f := by
              have : rest.tail.length ≤ rest.length := by cases rest <;> simp
              omega
            by_cases h4 : st.ddVal < ((st.render).reverse).length
            · -- backtrack
              have hsne : st.segs ≠ [] := by
                rw [← ddVal_lt_render_iff st hst]
                simpa using h4
              have hdecomp : st.segs = st.segs.dropLast ++ [st.segs.getLast hsne] :=
                (List.dropLast_append_getLast hsne).symm
              have hpop := popSeg_render st st.segs.dropLast (st.segs.getLast hsne) hdecomp hst
              have hstep : cleanLoopF (f + 1) (c :: rest) st.rooted (st.render).reverse st.ddVal
                  = cleanLoopF f rest.tail st.rooted
                    (popSeg (st.render).reverse st.ddVal) st.ddVal := by
                simp only [cleanLoopF]
                rw [if_neg h1, if_neg h2, if_pos h3, if_pos h4]
              set st' : Stk := Stk.mk st.rooted st.dds st.segs.dropLast with hst'
              have hgood' : goodStk st' := by
                refine ⟨hst.1, fun s hs => hst.2 s ?_⟩
                exact mem_of_mem_dropLast hs
              have harg : popSeg (st.render).reverse st.ddVal = (st'.render).reverse := hpop
              have hdd' : st.ddVal = st'.ddVal := rfl
              rw [hstep, harg, hdd']
              obtain ⟨st2, hg2, hr2, he2⟩ := ih rest.tail st' hrtl hgood'
              exact ⟨st2, hg2, hr2, he2⟩
            · -- at the barrier
              have hseq : st.segs = [] := by
                by_contra hc
                exact h4 (by simpa using (ddVal_lt_render_iff st hst).mpr hc)
              by_cases hrt : st.rooted = false
              · have hddp := render_ddpush st hrt hseq
                have hstep : cleanLoopF (f + 1) (c :: rest) st.rooted (st.render).reverse st.ddVal
                    = cleanLoopF f rest.tail st.rooted
                      ('.' :: '.' :: (if (st.render).reverse.length ≠ 0
                        then '/' :: (st.render).reverse else (st.render).reverse))
                      ('.' :: '.' :: (if (st.render).reverse.length ≠ 0
                        then '/' :: (st.render).reverse else (st.render).reverse)).length := by
                  simp only [cleanLoopF]
                  rw [if_neg h1, if_neg h2, if_pos h3, if_neg h4, if_pos hrt]
                set st' : Stk := Stk.mk false (st.dds + 1) [] with hst'
                have hgood' : goodStk st' := ⟨by intro hc; simp at hc, by intro s hs; simp at hs⟩
                have hlen2 : (st'.render).reverse.length = st'.ddVal := by
                  rw [← hddp.1]
                  exact hddp.2
                rw [hstep, hddp.1, hlen2]
                obtain ⟨st2, hg2, hr2, he2⟩ := ih rest.tail st' hrtl hgood'
                refine ⟨st2, hg2, ?_, ?_⟩
                · rw [hr2, hst', hrt]
                · have hsame : st.rooted = st'.rooted := by rw [hrt, hst']
                  rw [hsame]
                  exact he2
              · have hstep : cleanLoopF (f + 1) (c :: rest) st.rooted (st.render).reverse st.ddVal
                    = cleanLoopF f rest.tail st.rooted (st.render).reverse st.ddVal := by
                  simp only [cleanLoopF]
                  rw [if_neg h1, if_neg h2, if_pos h3, if_neg h4, if_neg hrt]
                rw [hstep]
                exact ih rest.tail st hrtl hst
          · -- ordinary segment
            have hseg : goodSeg (c :: rest.takeWhile (· ≠ '/')) := by
              refine ⟨by simp, ?_, ?_, ?_⟩
              · intro x hx
                rcases List.mem_cons.mp hx with hx | hx
                · rw [hx]; exact h1
                · have := List.mem_takeWhile_imp hx
                  simpa using this
              · intro hc
                obtain ⟨hcd, htw⟩ := List.cons_eq_cons.mp hc
                refine h2 ⟨hcd, ?_⟩
                cases rest with
                | nil => exact Or.inl rfl
                | cons r rs =>
                  rw [List.takeWhile_cons] at htw
                  by_cases hrsep : r = '/'
                  · right
                    simp [hrsep]
                  · rw [if_pos (by simpa using hrsep)] at htw
                    simp at htw
              · intro hc
                obtain ⟨hcd, htw⟩ := List.cons_eq_cons.mp hc
                cases rest with
                | nil => simp at htw
                | cons r rs =>
                  rw [List.takeWhile_cons] at htw
                  by_cases hrsep : r = '/'
                  · rw [if_neg (by simpa using hrsep)] at htw
                    simp at htw
                  · rw [if_pos (by simpa using hrsep)] at htw
                    obtain ⟨hrd, htw2⟩ := List.cons_eq_cons.mp htw
                    refine h3 ⟨hcd, by simp [hrd], ?_⟩
                    cases rs with
                    | nil => exact Or.inl rfl
                    | cons q qs =>
                      rw [List.takeWhile_cons] at htw2
                      by_cases hq : q = '/'
                      · right
                        simp [hq]
                      · rw [if_pos (by simpa using hq)] at htw2
                        simp at htw2
            have hpush := render_push st (c :: rest.takeWhile (· ≠ '/')) hst (by simp)
            have hstep : cleanLoopF (f + 1) (c :: rest) st.rooted (st.render).reverse st.ddVal
                = cleanLoopF f (rest.dropWhile (· ≠ '/')) st.rooted
                  ((rest.takeWhile (· ≠ '/')).reverse ++ c ::
                    (if (st.rooted = true ∧ (st.render).reverse.length ≠ 1)
                        ∨ (st.rooted = false ∧ (st.render).reverse.length ≠ 0)
                      then '/' :: (st.render).reverse else (st.render).reverse)) st.ddVal := by
              simp only [cleanLoopF]
              rw [if_neg h1, if_neg h2, if_neg h3]
            have harg : (rest.takeWhile (· ≠ '/')).reverse ++ c ::
                  (if (st.rooted = true ∧ (st.render).reverse.length ≠ 1)
                      ∨ (st.rooted = false ∧ (st.render).reverse.length ≠ 0)
                    then '/' :: (st.render).reverse else (st.render).reverse)
                = (c :: rest.takeWhile (· ≠ '/')).reverse ++
                  (if (st.rooted = true ∧ (st.render).reverse.length ≠ 1)
                      ∨ (st.rooted = false ∧ (st.render).reverse.length ≠ 0)
                    then '/' :: (st.render).reverse else (st.render).reverse) := by
              simp
            set st' : Stk := Stk.mk st.rooted st.dds
              (st.segs ++ [c :: rest.takeWhile (· ≠ '/')]) with hst'
            have hgood' : goodStk st' := by
              refine ⟨hst.1, fun s hs => ?_⟩
              rcases List.mem_append.mp hs with hsm | hsm
              · exact hst.2 s hsm
              · rw [List.mem_singleton.mp hsm]
                exact hseg
            have hdwl : (rest.dropWhile (· ≠ '/')).length ≤ f :=
              le_trans (dropWhile_length_le _ rest) hrl
            have hdd' : st.ddVal = st'.ddVal := rfl
            rw [hstep, harg, hpush, hdd']
            obtain ⟨st2, hg2, hr2, he2⟩ := ih (rest.dropWhile (· ≠ '/')) st' hdwl hgood'
            exact ⟨st2, hg2, hr2, he2⟩

/-- Cleaned-path characterization: the possible outputs of `Clean`. -/
def CleanOut (l : List Char) : Prop :=
  l = ['.'] ∨ ∃ st : Stk, goodStk st ∧ (st.rooted = true ∨ st.dds + st.segs.length ≠ 0)
    ∧ l = st.render

theorem goCleanList_cleanOut (cs : List Char) : CleanOut (goCleanList cs) := by
  by_cases hcs : cs = []
  · subst hcs
    left
    rfl
  · by_cases hroot : cs.head? = some '/'
    · have hgoal : goCleanList cs = if (cleanLoop cs.tail true ['/'] 1).length = 0 then ['.']
          else (cleanLoop cs.tail true ['/'] 1).reverse := by
        simp [goCleanList, hcs, hroot]
      rw [hgoal]
      obtain ⟨st2, hg, hr, he⟩ :=
        cleanLoopF_spec cs.tail.length cs.tail (Stk.mk true 0 []) (le_refl _)
          ⟨fun _ => rfl, by intro s hs; simp at hs⟩
      have he' : cleanLoop cs.tail true ['/'] 1 = (st2.render).reverse := he
      rw [he']
      have hrend : st2.render = '/' :: joinSegs st2.segs := by
        simp [Stk.render, hr]
      rw [if_neg (by simp [hrend])]
      right
      exact ⟨st2, hg, Or.inl hr, by simp⟩
    · have hgoal : goCleanList cs = if (cleanLoop cs false [] 0).length = 0 then ['.']
          else (cleanLoop cs false [] 0).reverse := by
        simp [goCleanList, hcs, hroot]
      rw [hgoal]
      obtain ⟨st2, hg, hr, he⟩ :=
        cleanLoopF_spec cs.length cs (Stk.mk false 0 []) (le_refl _)
          ⟨by intro hc; simp at hc, by intro s hs; simp at hs⟩
      have he' : cleanLoop cs false [] 0 = (st2.render).reverse := he
      rw [he']
      by_cases hlen : ((st2.render).reverse).length = 0
      · rw [if_pos hlen]
        left
        rfl
      · rw [if_neg hlen]
        right
        refine ⟨st2, hg, Or.inr ?_, by simp⟩
        intro hzero
        have hd0 : st2.dds = 0 := by omega
        have hs0 : st2.segs = [] := List.eq_nil_of_length_eq_zero (by omega)
        have : st2.render = [] := by
          simp [Stk.render, hr, hd0, hs0, ddSegs, joinSegs]
        rw [this] at hlen
        simp at hlen

theorem takeWhile_app_of_all (p : α → Bool) (l r : List α) (h : ∀ c ∈ l, p c) :
    (l ++ r).takeWhile p = l ++ r.takeWhile p := by
  induction l with
  | nil => simp
  | cons c cs ih =>
    rw [List.cons_append, List.takeWhile_cons, if_pos (h c (by simp))]
    rw [ih (fun x hx => h x (by simp [hx]))]
    simp

theorem dropWhile_app_of_all (p : α → Bool) (l r : List α) (h : ∀ c ∈ l, p c) :
    (l ++ r).dropWhile p = r.dropWhile p := by
  induction l with
  | nil => simp
  | cons c cs ih =>
    rw [List.cons_append, List.dropWhile_cons, if_pos (h c (by simp))]
    exact ih (fun x hx => h x (by simp [hx]))

theorem joinSegs_cons_general (s : List Char) (rest : List (List Char)) :
    joinSegs (s :: rest) = s ++ (if rest = [] then [] else '/' :: joinSegs rest) := by
  cases rest with
  | nil => simp [joinSegs]
  | cons t ts =>
    rw [joinSegs_cons_of_ne s (t :: ts) (by simp), if_neg (by simp)]

/-- Running the loop on the rendered ordinary segments `others` pushes them
all onto the stack. -/
theorem cleanLoopF_consume_segs :
    ∀ (others : List (List Char)) (fuel : Nat) (st : Stk),
    (joinSegs others).length ≤ fuel → goodStk st → (∀ s ∈ others, goodSeg s) →
    cleanLoopF fuel (joinSegs others) st.rooted (st.render).reverse st.ddVal
      = (Stk.mk st.rooted st.dds (st.segs ++ others)).render.reverse := by
  intro others
  induction others with
  | nil =>
    intro fuel st _ _ _
    rw [show joinSegs [] = [] from rfl, cleanLoopF_nil]
    simp
  | cons s more ih =>
    intro fuel st hf hst hgood
    obtain ⟨hsne, hssl, hsdot, hsdd⟩ := hgood s (by simp)
    obtain ⟨c, stail, hs⟩ : ∃ c stail, s = c :: stail := by
      cases s with
      | nil => exact absurd rfl hsne
      | cons c stail => exact ⟨c, stail, rfl⟩
    have hc : c ≠ '/' := hssl c (by rw [hs]; simp)
    have hstl : ∀ x ∈ stail, x ≠ '/' := fun x hx => hssl x (by rw [hs]; simp [hx])
    have hstream : joinSegs (s :: more)
        = c :: (stail ++ (if more = [] then [] else '/' :: joinSegs more)) := by
      rw [joinSegs_cons_general, hs]
      rfl
    match fuel with
    | 0 =>
      exfalso
      rw [hstream] at hf
      simp at hf
    | f + 1 =>
      rw [hstream]
      have hrest : stail ++ (if more = [] then [] else '/' :: joinSegs more) ≠ [] ∨ c ≠ '.' := by
        by_cases hcd : c = '.'
        · left
          cases hst2 : stail with
          | nil =>
            exfalso
            apply hsdot
            rw [hs, hcd, hst2]
          | cons x xs => simp
        · right; exact hcd
      have h2 : ¬(c = '.' ∧ ((stail ++ (if more = [] then [] else '/' :: joinSegs more)) = []
          ∨ (stail ++ (if more = [] then [] else '/' :: joinSegs more)).head? = some '/')) := by
        rintro ⟨hcd, hdisj⟩
        cases hst2 : stail with
        | nil =>
          apply hsdot
          rw [hs, hcd, hst2]
        | cons x xs =>
          have hx : x ≠ '/' := hstl x (by rw [hst2]; simp)
          rw [hst2] at hdisj
          rcases hdisj with hd | hd
          · simp at hd
          · simp at hd
            exact hx hd
      have h3 : ¬(c = '.'
          ∧ (stail ++ (if more = [] then [] else '/' :: joinSegs more)).head? = some '.'
          ∧ ((stail ++ (if more = [] then [] else '/' :: joinSegs more)).tail = []
            ∨ (stail ++ (if more = [] then [] else '/' :: joinSegs more)).tail.head?
              = some '/')) := by
        rintro ⟨hcd, hhead, hdisj⟩
        cases hst2 : stail with
        | nil =>
          apply hsdot
          rw [hs, hcd, hst2]
        | cons x xs =>
          rw [hst2] at hhead hdisj
          simp only [List.cons_append, List.head?_cons, Option.some.injEq] at hhead
          cases hxs : xs with
          | nil =>
            apply hsdd
            rw [hs, hcd, hst2, hhead, hxs]
          | cons y ys =>
            have hy : y ≠ '/' := hstl y (by rw [hst2, hxs]; simp)
            rw [hxs] at hdisj
            rcases hdisj with hd | hd
            · simp at hd
            · simp at hd
              exact hy hd
      have hstep : cleanLoopF (f + 1)
          (c :: (stail ++ (if more = [] then [] else '/' :: joinSegs more)))
          st.rooted (st.render).reverse st.ddVal
          = cleanLoopF f
            ((stail ++ (if more = [] then [] else '/' :: joinSegs more)).dropWhile (· ≠ '/'))
            st.rooted
            (((stail ++ (if more = [] then [] else '/' :: joinSegs more)).takeWhile
                (· ≠ '/')).reverse ++ c ::
              (if (st.rooted = true ∧ (st.render).reverse.length ≠ 1)
                  ∨ (st.rooted = false ∧ (st.render).reverse.length ≠ 0)
                then '/' :: (st.render).reverse else (st.render).reverse)) st.ddVal := by
        simp only [cleanLoopF]
        rw [if_neg (by simpa using hc), if_neg h2, if_neg h3]
      rw [hstep]
      have htw : (stail ++ (if more = [] then [] else '/' :: joinSegs more)).takeWhile
          (· ≠ '/') = stail := by
        rw [takeWhile_app_of_all _ stail _ (fun x hx => by simpa using hstl x hx)]
        by_cases hm : more = []
        · rw [if_pos hm]
          simp
        · rw [if_neg hm]
          rw [List.takeWhile_cons, if_neg (by simp)]
          simp
      have hdw : (stail ++ (if more = [] then [] else '/' :: joinSegs more)).dropWhile
          (· ≠ '/') = (if more = [] then [] else '/' :: joinSegs more) := by
        rw [dropWhile_app_of_all _ stail _ (fun x hx => by simpa using hstl x hx)]
        by_cases hm : more = []
        · rw [if_pos hm]
          rfl
        · rw [if_neg hm]
          rw [List.dropWhile_cons, if_neg (by simp)]
      rw [htw, hdw]
      have hpush := render_push st s hst hsne
      have harg : stail.reverse ++ c ::
            (if (st.rooted = true ∧ (st.render).reverse.length ≠ 1)
                ∨ (st.rooted = false ∧ (st.render).reverse.length ≠ 0)
              then '/' :: (st.render).reverse else (st.render).reverse)
          = (Stk.mk st.rooted st.dds (st.segs ++ [s])).render.reverse := by
        rw [← hpush, hs]
        simp
      rw [harg]
      set st' : Stk := Stk.mk st.rooted st.dds (st.segs ++ [s]) with hst'
      have hgood' : goodStk st' := by
        refine ⟨hst.1, fun q hq => ?_⟩
        rcases List.mem_append.mp hq with hq | hq
        · exact hst.2 q hq
        · rw [List.mem_singleton.mp hq]
          exact hgood s (by simp)
      by_cases hm : more = []
      · rw [if_pos hm]
        rw [cleanLoopF_nil]
        rw [hm]
      · rw [if_neg hm]
        match f with
        | 0 =>
          exfalso
          rw [hstream] at hf
          simp only [List.length_cons] at hf
          rw [if_neg hm] at hf
          simp at hf
        | f2 + 1 =>
          have hskip : cleanLoopF (f2 + 1) ('/' :: joinSegs more) st.rooted
              (st'.render).reverse st.ddVal
              = cleanLoopF f2 (joinSegs more) st.rooted (st'.render).reverse st.ddVal := by
            simp [cleanLoopF]
          rw [hskip]
          have hfm : (joinSegs more).length ≤ f2 := by
            rw [hstream] at hf
            simp only [List.length_cons] at hf
            rw [if_neg hm] at hf
            simp only [List.length_append, List.length_cons] at hf
            omega
          have hdd' : st.ddVal = st'.ddVal := rfl
          have hrt' : st.rooted = st'.rooted := rfl
          rw [hdd', hrt']
          rw [ih f2 st' hfm hgood' (fun q hq => hgood q (by simp [hq]))]
          rw [hst']
          simp

/-- Running the loop on a rendered `".."`-run followed by ordinary segments
(from an unrooted, segment-free stack) rebuilds the stack. -/
theorem cleanLoopF_consume_dds :
    ∀ (k : Nat) (others : List (List Char)) (fuel : Nat) (st : Stk),
    (joinSegs (ddSegs k ++ others)).length ≤ fuel →
    st.rooted = false → st.segs = [] → (∀ s ∈ others, goodSeg s) →
    cleanLoopF fuel (joinSegs (ddSegs k ++ others)) st.rooted (st.render).reverse st.ddVal
      = (Stk.mk false (st.dds + k) others).render.reverse := by
  intro k
  induction k with
  | zero =>
    intro others fuel st hf hr hsegs hgood
    have hst : goodStk st := ⟨fun hc => by rw [hr] at hc; exact absurd hc (by simp),
      by rw [hsegs]; intro s hs; simp at hs⟩
    have h0 : ddSegs 0 ++ others = others := by simp [ddSegs]
    rw [h0] at hf ⊢
    rw [cleanLoopF_consume_segs others fuel st hf hst hgood]
    rw [hsegs, hr]
    simp
  | succ k ih =>
    intro others fuel st hf hr hsegs hgood
    have hst : goodStk st := ⟨fun hc => by rw [hr] at hc; exact absurd hc (by simp),
      by rw [hsegs]; intro s hs; simp at hs⟩
    have hdd : ddSegs (k + 1) ++ others = ['.', '.'] :: (ddSegs k ++ others) := by
      simp [ddSegs, List.replicate_succ]
    have hstream : joinSegs (ddSegs (k + 1) ++ others)
        = '.' :: '.' :: (if (ddSegs k ++ others) = [] then []
            else '/' :: joinSegs (ddSegs k ++ others)) := by
      rw [hdd, joinSegs_cons_general]
      rfl
    have h4 : ¬st.ddVal < ((st.render).reverse).length := by
      intro hc
      exact absurd hsegs ((ddVal_lt_render_iff st hst).mp (by simpa using hc))
    have hddp := render_ddpush st hr hsegs
    have hlen2 : ((Stk.mk false (st.dds + 1) []).render).reverse.length
        = (Stk.mk false (st.dds + 1) []).ddVal := by
      rw [← hddp.1]
      exact hddp.2
    by_cases hmt : (ddSegs k ++ others) = []
    · rw [if_pos hmt] at hstream
      obtain ⟨hk0, ho0⟩ := List.append_eq_nil.mp hmt
      have hk : k = 0 := by
        by_contra hc
        exact absurd hk0 (by simp [ddSegs, List.replicate_eq_nil_iff, hc])
      match fuel with
      | 0 =>
        exfalso
        rw [hstream] at hf
        simp at hf
      | f + 1 =>
        rw [hstream]
        have hstep : cleanLoopF (f + 1) ['.', '.'] st.rooted (st.render).reverse st.ddVal
            = cleanLoopF f [] st.rooted
              ((if st.ddVal < ((st.render).reverse).length
                then (popSeg (st.render).reverse st.ddVal, st.ddVal)
                else if st.rooted = false then
                  ('.' :: '.' :: (if (st.render).reverse.length ≠ 0
                      then '/' :: (st.render).reverse else (st.render).reverse),
                    ('.' :: '.' :: (if (st.render).reverse.length ≠ 0
                      then '/' :: (st.render).reverse else (st.render).reverse)).length)
                else ((st.render).reverse, st.ddVal)).1)
              ((if st.ddVal < ((st.render).reverse).length
                then (popSeg (st.render).reverse st.ddVal, st.ddVal)
                else if st.rooted = false then
                  ('.' :: '.' :: (if (st.render).reverse.length ≠ 0
                      then '/' :: (st.render).reverse else (st.render).reverse),
                    ('.' :: '.' :: (if (st.render).reverse.length ≠ 0
                      then '/' :: (st.render).reverse else (st.render).reverse)).length)
                else ((st.render).reverse, st.ddVal)).2) := rfl
        rw [hstep, if_neg h4, if_pos hr, cleanLoopF_nil]
        show ('.' :: '.' :: (if (st.render).reverse.length ≠ 0
            then '/' :: (st.render).reverse else (st.render).reverse)) = _
        rw [hddp.1]
        rw [ho0, hk]
    · rw [if_neg hmt] at hstream
      match fuel with
      | 0 =>
        exfalso
        rw [hstream] at hf
        simp at hf
      | f + 1 =>
        rw [hstream]
        have hstep : cleanLoopF (f + 1)
            ('.' :: '.' :: '/' :: joinSegs (ddSegs k ++ others))
            st.rooted (st.render).reverse st.ddVal
            = cleanLoopF f ('/' :: joinSegs (ddSegs k ++ others)) st.rooted
              ((if st.ddVal < ((st.render).reverse).length
                then (popSeg (st.render).reverse st.ddVal, st.ddVal)
                else if st.rooted = false then
                  ('.' :: '.' :: (if (st.render).reverse.length ≠ 0
                      then '/' :: (st.render).reverse else (st.render).reverse),
                    ('.' :: '.' :: (if (st.render).reverse.length ≠ 0
                      then '/' :: (st.render).reverse else (st.render).reverse)).length)
                else ((st.render).reverse, st.ddVal)).1)
              ((if st.ddVal < ((st.render).reverse).length
                then (popSeg (st.render).reverse st.ddVal, st.ddVal)
                else if st.rooted = false then
                  ('.' :: '.' :: (if (st.render).reverse.length ≠ 0
                      then '/' :: (st.render).reverse else (st.render).reverse),
                    ('.' :: '.' :: (if (st.render).reverse.length ≠ 0
                      then '/' :: (st.render).reverse else (st.render).reverse)).length)
                else ((st.render).reverse, st.ddVal)).2) := rfl
        rw [hstep, if_neg h4, if_pos hr]
        have hred : cleanLoopF f ('/' :: joinSegs (ddSegs k ++ others)) st.rooted
              (('.' :: '.' :: (if (st.render).reverse.length ≠ 0
                  then '/' :: (st.render).reverse else (st.render).reverse),
                ('.' :: '.' :: (if (st.render).reverse.length ≠ 0
                  then '/' :: (st.render).reverse else (st.render).reverse)).length) :
                  List Char × Nat).1
              (('.' :: '.' :: (if (st.render).reverse.length ≠ 0
                  then '/' :: (st.render).reverse else (st.render).reverse),
                ('.' :: '.' :: (if (st.render).reverse.length ≠ 0
                  then '/' :: (st.render).reverse else (st.render).reverse)).length) :
                  List Char × Nat).2
            = cleanLoopF f ('/' :: joinSegs (ddSegs k ++ others)) st.rooted
              ((Stk.mk false (st.dds + 1) []).render).reverse
              (Stk.mk false (st.dds + 1) []).ddVal := by
          rw [show (('.' :: '.' :: (if (st.render).reverse.length ≠ 0
              then '/' :: (st.render).reverse else (st.render).reverse),
                ('.' :: '.' :: (if (st.render).reverse.length ≠ 0
                  then '/' :: (st.render).reverse else (st.render).reverse)).length) :
                  List Char × Nat).1
              = ('.' :: '.' :: (if (st.render).reverse.length ≠ 0
                  then '/' :: (st.render).reverse else (st.render).reverse)) from rfl]
          rw [hddp.1, hlen2]
        rw [hred]
        match f with
        | 0 =>
          exfalso
          rw [hstream] at hf
          simp at hf
        | f2 + 1 =>
          set st' : Stk := Stk.mk false (st.dds + 1) [] with hst'
          have hskip : cleanLoopF (f2 + 1) ('/' :: joinSegs (ddSegs k ++ others)) st.rooted
              (st'.render).reverse st'.ddVal
              = cleanLoopF f2 (joinSegs (ddSegs k ++ others)) st.rooted
                (st'.render).reverse st'.ddVal := by
            simp [cleanLoopF]
          rw [hskip]
          have hfm : (joinSegs (ddSegs k ++ others)).length ≤ f2 := by
            rw [hstream] at hf
            simp only [List.length_cons] at hf
            omega
          have hrt' : st.rooted = st'.rooted := by rw [hr, hst']
          rw [hrt']
          rw [ih others f2 st' hfm (by rw [hst']) (by rw [hst']) hgood]
          rw [hst']
          show (Stk.mk false (st.dds + 1 + k) others).render.reverse = _
          have harith : st.dds + 1 + k = st.dds + (k + 1) := by omega
          rw [harith]

/-- Cleaned outputs are fixed points of `Clean`. -/
theorem goCleanList_fix (l : List Char) (h : CleanOut l) : goCleanList l = l := by
  rcases h with h | ⟨st, hg, hnz, hrend⟩
  · rw [h]
    decide
  · cases hrt : st.rooted with
    | true =>
      have hrend2 : l = '/' :: joinSegs st.segs := by
        rw [hrend]
        simp [Stk.render, hrt]
      have hcs : l ≠ [] := by rw [hrend2]; simp
      have hhead : l.head? = some '/' := by rw [hrend2]; rfl
      have hgoal : goCleanList l = if (cleanLoop l.tail true ['/'] 1).length = 0 then ['.']
          else (cleanLoop l.tail true ['/'] 1).reverse := by
        simp [goCleanList, hcs, hhead]
      rw [hgoal]
      have htail : l.tail = joinSegs st.segs := by
        rw [hrend2]
        rfl
      have hconsume := cleanLoopF_consume_segs st.segs (joinSegs st.segs).length
        (Stk.mk true 0 []) (le_refl _) ⟨fun _ => rfl, by intro s hs; simp at hs⟩ hg.2
      have hc2 : cleanLoop l.tail true ['/'] 1
          = ((Stk.mk true 0 st.segs).render).reverse := by
        rw [htail]
        exact hconsume
      rw [hc2]
      have hr3 : (Stk.mk true 0 st.segs).render = l := by
        rw [hrend2]
        simp [Stk.render]
      rw [hr3]
      rw [if_neg (by rw [hrend2]; simp)]
      simp
    | false =>
      have hd0 : st.dds = st.dds := rfl
      have hrend2 : l = joinSegs (ddSegs st.dds ++ st.segs) := by
        rw [hrend]
        simp [Stk.render, hrt]
      have hBne : ddSegs st.dds ++ st.segs ≠ [] := by
        intro hc
        obtain ⟨hk0, ho0⟩ := List.append_eq_nil.mp hc
        have hdz : st.dds = 0 := by
          by_contra hcc
          exact absurd hk0 (by simp [ddSegs, List.replicate_eq_nil_iff, hcc])
        rcases hnz with h | h
        · rw [hrt] at h
          simp at h
        · apply h
          rw [hdz, ho0]
          simp
      have hallne : ∀ s ∈ ddSegs st.dds ++ st.segs, s ≠ [] := by
        intro s hs
        rcases List.mem_append.mp hs with h | h
        · exact ddSegs_mem_ne_nil _ s h
        · exact (hg.2 s h).1
      have hcs : l ≠ [] := by
        rw [hrend2]
        exact fun hc => hBne ((joinSegs_eq_nil_iff _ hallne).mp hc)
      have hhead : l.head? ≠ some '/' := by
        rw [hrend2]
        obtain ⟨b, B', hB⟩ : ∃ b B', ddSegs st.dds ++ st.segs = b :: B' := by
          cases hBB : ddSegs st.dds ++ st.segs with
          | nil => exact absurd hBB hBne
          | cons b B' => exact ⟨b, B', rfl⟩
        rw [hB, joinSegs_cons_general]
        have hbne : b ≠ [] := hallne b (by rw [hB]; simp)
        have hbsl : ∀ x ∈ b, x ≠ '/' := by
          intro x hx
          have hb : b ∈ ddSegs st.dds ++ st.segs := by rw [hB]; simp
          rcases List.mem_append.mp hb with h | h
          · rw [List.eq_of_mem_replicate h] at hx
            rcases List.mem_cons.mp hx with h' | h'
            · rw [h']; simp
            · rcases List.mem_cons.mp h' with h'' | h''
              · rw [h'']; simp
              · simp at h''
          · exact (hg.2 b h).2.1 x hx
        obtain ⟨b0, b', hb0⟩ : ∃ b0 b', b = b0 :: b' := by
          cases hbb : b with
          | nil => exact absurd hbb hbne
          | cons b0 b' => exact ⟨b0, b', rfl⟩
        rw [hb0]
        simp only [List.cons_append, List.head?_cons, ne_eq, Option.some.injEq]
        exact hbsl b0 (by rw [hb0]; simp)
      have hgoal : goCleanList l = if (cleanLoop l false [] 0).length = 0 then ['.']
          else (cleanLoop l false [] 0).reverse := by
        simp [goCleanList, hcs, hhead]
      rw [hgoal]
      have hconsume := cleanLoopF_consume_dds st.dds st.segs
        (joinSegs (ddSegs st.dds ++ st.segs)).length (Stk.mk false 0 []) (le_refl _)
        rfl rfl hg.2
      have hc2 : cleanLoop l false [] 0 = ((Stk.mk false (0 + st.dds) st.segs).render).reverse := by
        rw [show cleanLoop l false [] 0
            = cleanLoopF l.length l false [] 0 from rfl]
        rw [hrend2]
        exact hconsume
      rw [hc2]
      have hr3 : (Stk.mk false (0 + st.dds) st.segs).render = l := by
        rw [hrend2]
        have : 0 + st.dds = st.dds := by omega
        rw [this]
        simp [Stk.render]
      rw [hr3]
      rw [if_neg (by simpa using fun hc => hcs (List.eq_nil_of_length_eq_zero hc))]
      simp

/-- `filepath.Clean` is idempotent (list form). -/
theorem goCleanList_idem (cs : List Char) : goCleanList (goCleanList cs) = goCleanList cs :=
  goCleanList_fix _ (goCleanList_cleanOut cs)

/-- `normalizePath` is idempotent: the wrapper's double normalization
(facade method plus `writeOperation`/`readOperation`) is harmless. -/
theorem normalizePath_idem (s : String) : normalizePath (normalizePath s) = normalizePath s := by
  show (⟨goCleanList (goCleanList s.data)⟩ : String) = ⟨goCleanList s.data⟩
  rw [goCleanList_idem]

example : normalizePath "a//b/./c/" = "a/b/c" := by decide
example : normalizePath "" = "." := by decide
example : normalizePath ".." = ".." := by decide
example : normalizePath "/.." = "/" := by decide
example : normalizePath "./a" = "a" := by decide
example : normalizePath "a/.." = "." := by decide
example : normalizePath "../../x/./" = "../../x" := by decide
example : normalizePath "/x/../b" = "/b" := by decide

/-!
## The current revision of the wrapper

Namespace `Badfs` embeds the current sources: the `BadFs` facade whose
registries are `map[string]error` / `map[string]time.Duration`
(write-error map, read-error map, latency map), each method normalizing
with `normalizePath`, plus the `BadFile` handle facade of `file.go`.

An operation's observable outcome is an `OpRes`: the sequence of sleeps
performed (`delays`), whether the wrapped provider was invoked
(`delegated`) and the returned error.  The provider's own hypothetical
answer for the call is passed in as the `src` argument and is returned
unchanged when the call is delegated.
-/

/-- Result of a facade operation. -/
structure OpRes where
  delays : List Int
  delegated : Bool
  err : GoErr
deriving DecidableEq, Repr

namespace Badfs

/-- The `BadFs` registry state (the wrapped provider is kept abstract). -/
structure BadFs where
  writeErrors : List (String × GoErr)
  readErrors : List (String × GoErr)
  latencies : List (String × Int)
deriving DecidableEq, Repr

/-- `New`: fresh wrapper with empty registries. -/
def New : BadFs := ⟨[], [], []⟩

def BadFs.AddWriteError (r : BadFs) (name : String) (err : GoErr) : BadFs :=
  { r with writeErrors := mapInsert r.writeErrors (normalizePath name) err }

def BadFs.DelWriteError (r : BadFs) (name : String) : BadFs :=
  { r with writeErrors := mapErase r.writeErrors (normalizePath name) }

def BadFs.AddReadError (r : BadFs) (name : String) (err : GoErr) : BadFs :=
  { r with readErrors := mapInsert r.readErrors (normalizePath name) err }

def BadFs.DelReadError (r : BadFs) (name : String) : BadFs :=
  { r with readErrors := mapErase r.readErrors (normalizePath name) }

/-- `AddLatency` rejects non-positive durations and otherwise replaces the
binding; the returned error is `nil` on success. -/
def BadFs.AddLatency (r : BadFs) (name : String) (latency : Int) : GoErr × BadFs :=
  let n := normalizePath name
  if latency ≤ 0 then (some GoError.invalidLatency, r)
  else (none, { r with latencies := mapInsert r.latencies n latency })

def BadFs.DelLatency (r : BadFs) (name : String) : BadFs :=
  { r with latencies := mapErase r.latencies (normalizePath name) }

def BadFs.GetLatency (r : BadFs) (name : String) : Int × GoErr :=
  let n := normalizePath name
  match mapLookup? r.latencies n with
  | some l => (l, none)
  | none => (0, some (GoError.noLatency n))

/-- `getError`: report the registered error, or a not-found error when the
binding is absent or holds the nil interface. -/
def BadFs.getError (errMap : List (String × GoErr)) (name : String) : GoErr × GoErr :=
  match mapLookup? errMap name with
  | some (some e) => (some e, none)
  | _ => (none, some (GoError.notRegistered name))

def BadFs.GetWriteError (r : BadFs) (name : String) : GoErr × GoErr :=
  BadFs.getError r.writeErrors (normalizePath name)

def BadFs.GetReadError (r : BadFs) (name : String) : GoErr × GoErr :=
  BadFs.getError r.readErrors (normalizePath name)

/-- `delay`: the sleeps performed for `name` (one sleep when a latency is
registered, none otherwise). -/
def BadFs.delayTrace (r : BadFs) (name : String) : List Int :=
  match mapLookup? r.latencies name with
  | some l => [l]
  | none => []

/-- `checkError`: a binding triggers only when present with non-nil error. -/
def BadFs.checkError (errMap : List (String × GoErr)) (name : String) : GoErr :=
  match mapLookup? errMap name with
  | some (some e) => some e
  | _ => none

def BadFs.checkWriteError (r : BadFs) (name : String) : GoErr :=
  BadFs.checkError r.writeErrors name

def BadFs.checkReadError (r : BadFs) (name : String) : GoErr :=
  BadFs.checkError r.readErrors name

/-- `writeOperation`: normalize, delay, then check the write rule. -/
def BadFs.writeOperation (r : BadFs) (name : String) : List Int × GoErr :=
  let n := normalizePath name
  (r.delayTrace n, r.checkWriteError n)

/-- `readOperation`: normalize, delay, then check the read rule. -/
def BadFs.readOperation (r : BadFs) (name : String) : List Int × GoErr :=
  let n := normalizePath name
  (r.delayTrace n, r.checkReadError n)

/-- The `BadFile` handle facade: handle-local fault state. -/
structure BadFile where
  writeError : GoErr
  readError : GoErr
  latency : Int
deriving DecidableEq, Repr

/-- `NewBadFile(goodFile, readError, writeError, latency)` (the wrapped
handle is abstract). -/
def NewBadFile (readError : GoErr) (writeError : GoErr) (latency : Int) : BadFile :=
  { writeError := writeError, readError := readError, latency := latency }

def BadFs.Chtimes (r : BadFs) (n : String) (src : GoErr) : OpRes :=
  let n' := normalizePath n
  match r.writeOperation n' with
  | (ds, some err) => ⟨ds, false, some err⟩
  | (ds, none) => ⟨ds, true, src⟩

def BadFs.Chmod (r : BadFs) (n : String) (src : GoErr) : OpRes :=
  let n' := normalizePath n
  match r.writeOperation n' with
  | (ds, some err) => ⟨ds, false, some err⟩
  | (ds, none) => ⟨ds, true, src⟩

def BadFs.Chown (r : BadFs) (n : String) (src : GoErr) : OpRes :=
  let n' := normalizePath n
  match r.writeOperation n' with
  | (ds, some err) => ⟨ds, false, some err⟩
  | (ds, none) => ⟨ds, true, src⟩

def BadFs.Name (_r : BadFs) : String := "BadFsWrapper"

def BadFs.Stat (r : BadFs) (name : String) (src : GoErr) : OpRes :=
  let n := normalizePath name
  match r.readOperation n with
  | (ds, some err) => ⟨ds, false, some err⟩
  | (ds, none) => ⟨ds, true, src⟩

/-- `LstatIfPossible`: on an injected error the capability-probe result is
returned with the error; otherwise the call delegates to the provider's
`LstatIfPossible` (whose Bool answer is `srcBool`) when the capability is
present, and to the provider's `Stat` (reporting `false`) when it is not.
The `FileInfo` is abstracted away. -/
def BadFs.LstatIfPossible (r : BadFs) (name : String) (lstatOk srcBool : Bool)
    (src : GoErr) : OpRes × Bool :=
  let n := normalizePath name
  match r.readOperation n with
  | (ds, some err) => (⟨ds, false, some err⟩, lstatOk)
  | (ds, none) =>
    if lstatOk then (⟨ds, true, src⟩, srcBool)
    else (⟨ds, true, src⟩, false)

/-- `copyErrors`: Go map assignments `m[dst] = m[src]` — the right-hand
sides are zero-value-defaulted reads, so `dst` always receives a binding. -/
def BadFs.copyErrors (r : BadFs) (src dst : String) : BadFs :=
  { r with
    writeErrors := mapInsert r.writeErrors dst (mapLookupD r.writeErrors src none),
    readErrors := mapInsert r.readErrors dst (mapLookupD r.readErrors src none),
    latencies := mapInsert r.latencies dst (mapLookupD r.latencies src 0) }

/-- `SymlinkIfPossible`: write-check on the source name, capability probe,
delegate, and on success clone the source's rules onto the link name. -/
def BadFs.SymlinkIfPossible (r : BadFs) (name linkName : String) (linkerOk : Bool)
    (src : GoErr) : OpRes × BadFs :=
  let n := normalizePath name
  let l := normalizePath linkName
  match r.writeOperation n with
  | (ds, some err) => (⟨ds, false, some err⟩, r)
  | (ds, none) =>
    if linkerOk = false then (⟨ds, false, some (GoError.noSymlink n l)⟩, r)
    else
      match src with
      | some err => (⟨ds, true, some err⟩, r)
      | none => (⟨ds, true, none⟩, r.copyErrors n l)

def BadFs.ReadlinkIfPossible (r : BadFs) (name : String) (linkReaderOk : Bool)
    (src : GoErr) : OpRes :=
  let n := normalizePath name
  match r.readOperation n with
  | (ds, some err) => ⟨ds, false, some err⟩
  | (ds, none) =>
    if linkReaderOk then ⟨ds, true, src⟩
    else ⟨ds, false, some (GoError.noReadlink n)⟩

/-- `Rename`: this revision write-checks the old (source) path. -/
def BadFs.Rename (r : BadFs) (o n : String) (src : GoErr) : OpRes :=
  let o' := normalizePath o
  let _n' := normalizePath n
  match r.writeOperation o' with
  | (ds, some err) => ⟨ds, false, some err⟩
  | (ds, none) => ⟨ds, true, src⟩

/-- Character-list prefix test (`strings.HasPrefix` on UTF-8 text). -/
def listIsPrefixOf : List Char → List Char → Bool
  | [], _ => true
  | _ :: _, [] => false
  | a :: as, b :: bs => a = b && listIsPrefixOf as bs

/-- `p == path || strings.HasPrefix(p, path + FilePathSeparator)`. -/
def pathMatch (root p : String) : Bool :=
  p = root || listIsPrefixOf (root ++ "/").data p.data

/-- `RemoveAll`: delay every registered latency path under the root, then
return the first registered write-error binding under the root without
delegating; otherwise delegate. -/
def BadFs.RemoveAll (r : BadFs) (root : String) (src : GoErr) : OpRes :=
  let path := normalizePath root
  let ds := (r.latencies.filter (fun q => pathMatch path q.1)).map (fun q => q.2)
  match r.writeErrors.find? (fun q => pathMatch path q.1) with
  | some q => ⟨ds, false, q.2⟩
  | none => ⟨ds, true, src⟩

def BadFs.Remove (r : BadFs) (n : String) (src : GoErr) : OpRes :=
  let n' := normalizePath n
  match r.writeOperation n' with
  | (ds, some err) => ⟨ds, false, some err⟩
  | (ds, none) => ⟨ds, true, src⟩

/-- Flag constants of `os`/`syscall` (linux/amd64 values). -/
def O_RDONLY : Nat := 0
def O_WRONLY : Nat := 1
def O_RDWR : Nat := 2
def O_CREATE : Nat := 64
def O_TRUNC : Nat := 512
def O_APPEND : Nat := 1024

/-- The write-classification mask used by `OpenFile`. -/
def writeFlagMask : Nat := O_WRONLY ||| O_RDWR ||| O_APPEND ||| O_CREATE ||| O_TRUNC

/-- Whether `OpenFile` classifies `flag` as a write. -/
def isWriteFlag (flag : Nat) : Bool := flag.land writeFlagMask != 0

def BadFs.OpenFile (r : BadFs) (name : String) (flag : Nat) (src : GoErr) :
    OpRes × Option BadFile :=
  let n := normalizePath name
  match (if isWriteFlag flag then r.writeOperation n else r.readOperation n) with
  | (ds, some err) => (⟨ds, false, some err⟩, none)
  | (ds, none) =>
    match src with
    | some err => (⟨ds, true, some err⟩, none)
    | none => (⟨ds, true, none⟩,
        some (NewBadFile (mapLookupD r.readErrors n none) (mapLookupD r.writeErrors n none)
          (mapLookupD r.latencies n 0)))

def BadFs.Open (r : BadFs) (name : String) (src : GoErr) : OpRes × Option BadFile :=
  let n := normalizePath name
  match r.readOperation n with
  | (ds, some err) => (⟨ds, false, some err⟩, none)
  | (ds, none) =>
    match src with
    | some err => (⟨ds, true, some err⟩, none)
    | none => (⟨ds, true, none⟩,
        some (NewBadFile (mapLookupD r.readErrors n none) (mapLookupD r.writeErrors n none)
          (mapLookupD r.latencies n 0)))

def BadFs.Mkdir (r : BadFs) (n : String) (src : GoErr) : OpRes :=
  let n' := normalizePath n
  match r.writeOperation n' with
  | (ds, some err) => ⟨ds, false, some err⟩
  | (ds, none) => ⟨ds, true, src⟩

/-- `MkdirAll`: same scanning protocol as `RemoveAll`. -/
def BadFs.MkdirAll (r : BadFs) (path : String) (src : GoErr) : OpRes :=
  let path' := normalizePath path
  let ds := (r.latencies.filter (fun q => pathMatch path' q.1)).map (fun q => q.2)
  match r.writeErrors.find? (fun q => pathMatch path' q.1) with
  | some q => ⟨ds, false, q.2⟩
  | none => ⟨ds, true, src⟩

/-- `Create`: note that, unlike every other method, the raw `name` is used
directly — `writeOperation` normalizes internally for the fault check, but
the handle snapshot reads the registries under the raw name. -/
def BadFs.Create (r : BadFs) (name : String) (src : GoErr) : OpRes × Option BadFile :=
  match r.writeOperation name with
  | (ds, some err) => (⟨ds, false, some err⟩, none)
  | (ds, none) =>
    match src with
    | some err => (⟨ds, true, some err⟩, none)
    | none => (⟨ds, true, none⟩,
        some (NewBadFile (mapLookupD r.readErrors name none)
          (mapLookupD r.writeErrors name none) (mapLookupD r.latencies name 0)))

/-!
### `BadFile` handle methods (`file.go`)

`FileRes` is the result of a byte-transferring handle operation (count,
sleeps, delegation, error); `FileURes` is the result of an operation
without a count.
-/

structure FileRes where
  n : Int
  delays : List Int
  delegated : Bool
  err : GoErr
deriving DecidableEq, Repr

structure FileURes where
  delays : List Int
  delegated : Bool
  err : GoErr
deriving DecidableEq, Repr

/-- Handle `AddLatency`: rejects only strictly negative durations. -/
def BadFile.AddLatency (b : BadFile) (latency : Int) : GoErr × BadFile :=
  if latency < 0 then (some GoError.invalidLatency, b)
  else (none, { b with latency := latency })

def BadFile.GetLatency (b : BadFile) : Int := b.latency

/-- Handle `delay`: sleeps only when the latency is positive. -/
def BadFile.delayTrace (b : BadFile) : List Int :=
  if b.latency > 0 then [b.latency] else []

def BadFile.AddWriteError (b : BadFile) (err : GoErr) : BadFile :=
  { b with writeError := err }

def BadFile.DelWriteError (b : BadFile) : BadFile :=
  { b with writeError := none }

def BadFile.AddReadError (b : BadFile) (err : GoErr) : BadFile :=
  { b with readError := err }

def BadFile.DelReadError (b : BadFile) : BadFile :=
  { b with readError := none }

def BadFile.Close (b : BadFile) (src : GoErr) : FileURes :=
  match b.writeError with
  | some e => ⟨b.delayTrace, false, some e⟩
  | none => ⟨b.delayTrace, true, src⟩

def BadFile.Name (b : BadFile) (srcName : String) : List Int × String :=
  (b.delayTrace, srcName)

def BadFile.Readdirnames (b : BadFile) (src : GoErr) : FileURes :=
  match b.readError with
  | some e => ⟨b.delayTrace, false, some e⟩
  | none => ⟨b.delayTrace, true, src⟩

def BadFile.Readdir (b : BadFile) (src : GoErr) : FileURes :=
  match b.readError with
  | some e => ⟨b.delayTrace, false, some e⟩
  | none => ⟨b.delayTrace, true, src⟩

def BadFile.Stat (b : BadFile) (src : GoErr) : FileURes :=
  match b.readError with
  | some e => ⟨b.delayTrace, false, some e⟩
  | none => ⟨b.delayTrace, true, src⟩

def BadFile.Sync (b : BadFile) (src : GoErr) : FileURes :=
  match b.writeError with
  | some e => ⟨b.delayTrace, false, some e⟩
  | none => ⟨b.delayTrace, true, src⟩

def BadFile.Truncate (b : BadFile) (_size : Int) (src : GoErr) : FileURes :=
  match b.writeError with
  | some e => ⟨b.delayTrace, false, some e⟩
  | none => ⟨b.delayTrace, true, src⟩

def BadFile.Write (b : BadFile) (src : Int × GoErr) : FileRes :=
  match b.writeError with
  | some e => ⟨-1, b.delayTrace, false, some e⟩
  | none => ⟨src.1, b.delayTrace, true, src.2⟩

def BadFile.WriteAt (b : BadFile) (_off : Int) (src : Int × GoErr) : FileRes :=
  match b.writeError with
  | some e => ⟨-1, b.delayTrace, false, some e⟩
  | none => ⟨src.1, b.delayTrace, true, src.2⟩

def BadFile.WriteString (b : BadFile) (src : Int × GoErr) : FileRes :=
  match b.writeError with
  | some e => ⟨-1, b.delayTrace, false, some e⟩
  | none => ⟨src.1, b.delayTrace, true, src.2⟩

def BadFile.Read (b : BadFile) (src : Int × GoErr) : FileRes :=
  match b.readError with
  | some e => ⟨-1, b.delayTrace, false, some e⟩
  | none => ⟨src.1, b.delayTrace, true, src.2⟩

def BadFile.ReadAt (b : BadFile) (_off : Int) (src : Int × GoErr) : FileRes :=
  match b.readError with
  | some e => ⟨-1, b.delayTrace, false, some e⟩
  | none => ⟨src.1, b.delayTrace, true, src.2⟩

/-- `Seek` checks the handle's read error. -/
def BadFile.Seek (b : BadFile) (_off : Int) (_whence : Nat) (src : Int × GoErr) : FileRes :=
  match b.readError with
  | some e => ⟨-1, b.delayTrace, false, some e⟩
  | none => ⟨src.1, b.delayTrace, true, src.2⟩

end Badfs

/-!
## The `bad.go`/`errors.go` revision

Namespace `RndBadfs` embeds the revision kept in `src/badfs`: the
registries store `*RandomError` values (a pointer, hence `Option`), whose
`probability` field (a `float64`, modelled as `ℚ`) is stored by
`NewRandomError` and — as `getError` shows — never consulted again.
No method of this revision normalizes paths.
-/

namespace RndBadfs

structure RandomError where
  err : GoErr
  probability : ℚ
deriving DecidableEq, Repr

def NewRandomError (err : GoErr) (probability : ℚ) : RandomError :=
  { err := err, probability := probability }

/-- `getError` returns the stored error unconditionally: the probability
is ignored. -/
def RandomError.getError (r : RandomError) : GoErr := r.err

structure BadFs where
  writeErrors : List (String × Option RandomError)
  readErrors : List (String × Option RandomError)
  latencies : List (String × Int)
deriving DecidableEq, Repr

def New : BadFs := ⟨[], [], []⟩

def BadFs.AddRandomWriteError (r : BadFs) (name : String) (err : GoErr)
    (probability : ℚ) : BadFs :=
  { r with writeErrors := mapInsert r.writeErrors name (some (NewRandomError err probability)) }

def BadFs.AddWriteError (r : BadFs) (name : String) (err : GoErr) : BadFs :=
  r.AddRandomWriteError name err 1

def BadFs.AddRandomReadError (r : BadFs) (name : String) (err : GoErr)
    (probability : ℚ) : BadFs :=
  { r with readErrors := mapInsert r.readErrors name (some (NewRandomError err probability)) }

def BadFs.AddReadError (r : BadFs) (name : String) (err : GoErr) : BadFs :=
  r.AddRandomReadError name err 1

def BadFs.DelWriteError (r : BadFs) (name : String) : BadFs :=
  { r with writeErrors := mapErase r.writeErrors name }

def BadFs.DelReadError (r : BadFs) (name : String) : BadFs :=
  { r with readErrors := mapErase r.readErrors name }

def BadFs.AddLatency (r : BadFs) (name : String) (latency : Int) : GoErr × BadFs :=
  if latency ≤ 0 then (some GoError.invalidLatency, r)
  else (none, { r with latencies := mapInsert r.latencies name latency })

def BadFs.getError (errMap : List (String × Option RandomError)) (name : String) :
    GoErr × GoErr :=
  match mapLookup? errMap name with
  | some (some re) => (re.getError, none)
  | _ => (none, some (GoError.notRegistered name))

def BadFs.GetWriteError (r : BadFs) (name : String) : GoErr × GoErr :=
  BadFs.getError r.writeErrors name

def BadFs.GetReadError (r : BadFs) (name : String) : GoErr × GoErr :=
  BadFs.getError r.readErrors name

def BadFs.delayTrace (r : BadFs) (name : String) : List Int :=
  match mapLookup? r.latencies name with
  | some l => [l]
  | none => []

/-- `checkError`: a present, non-nil rule always yields its stored error;
probability plays no role. -/
def checkError (errors : List (String × Option RandomError)) (name : String) : GoErr :=
  match mapLookup? errors name with
  | some (some re) => re.getError
  | _ => none

def BadFs.checkWriteError (r : BadFs) (name : String) : GoErr :=
  checkError r.writeErrors name

def BadFs.checkReadError (r : BadFs) (name : String) : GoErr :=
  checkError r.readErrors name

def BadFs.writeOperation (r : BadFs) (name : String) : List Int × GoErr :=
  (r.delayTrace name, r.checkWriteError name)

def BadFs.readOperation (r : BadFs) (name : String) : List Int × GoErr :=
  (r.delayTrace name, r.checkReadError name)

def BadFs.Chmod (r : BadFs) (n : String) (src : GoErr) : OpRes :=
  match r.writeOperation n with
  | (ds, some err) => ⟨ds, false, some err⟩
  | (ds, none) => ⟨ds, true, src⟩

def BadFs.Stat (r : BadFs) (name : String) (src : GoErr) : OpRes :=
  match r.readOperation name with
  | (ds, some err) => ⟨ds, false, some err⟩
  | (ds, none) => ⟨ds, true, src⟩

/-- `Rename` in this revision write-checks the new (destination) path. -/
def BadFs.Rename (r : BadFs) (_o n : String) (src : GoErr) : OpRes :=
  match r.writeOperation n with
  | (ds, some err) => ⟨ds, false, some err⟩
  | (ds, none) => ⟨ds, true, src⟩

end RndBadfs

/-!
## Map lemmas
-/

theorem mapInsert_cons_ne (a : String × α) (as : List (String × α)) (k : String) (v : α)
    (h : a.1 ≠ k) : mapInsert (a :: as) k v = a :: mapInsert as k v := by
  unfold mapInsert
  rw [List.find?_cons_of_neg _ (by simpa using h)]
  split
  · rw [List.map_cons, if_neg h]
  · rw [List.cons_append]

theorem mapInsert_cons_eq (a : String × α) (as : List (String × α)) (k : String) (v : α)
    (h : a.1 = k) :
    mapInsert (a :: as) k v
      = (k, v) :: as.map (fun q => if q.1 = k then (k, v) else q) := by
  unfold mapInsert
  rw [if_pos (by
    rw [List.find?_cons_of_pos _ (by simpa using h)]
    rfl)]
  rw [List.map_cons, if_pos h]

theorem mapLookup_map_update (as : List (String × α)) (k k' : String) (v : α)
    (h : k' ≠ k) :
    mapLookup? (as.map (fun q => if q.1 = k then (k, v) else q)) k' = mapLookup? as k' := by
  induction as with
  | nil => rfl
  | cons b bs ih =>
    rw [List.map_cons]
    by_cases hb : b.1 = k
    · rw [if_pos hb]
      unfold mapLookup?
      rw [List.find?_cons_of_neg _ (by simpa using fun hc => h hc.symm)]
      rw [List.find?_cons_of_neg _ (by
        simp only [decide_eq_true_eq]
        rw [hb]
        exact fun hc => h hc.symm)]
      exact ih
    · rw [if_neg hb]
      by_cases hb' : b.1 = k'
      · unfold mapLookup?
        rw [List.find?_cons_of_pos _ (by simpa using hb'),
          List.find?_cons_of_pos _ (by simpa using hb')]
      · unfold mapLookup?
        rw [List.find?_cons_of_neg _ (by simpa using hb'),
          List.find?_cons_of_neg _ (by simpa using hb')]
        exact ih

theorem mapLookup_cons (a : String × α) (as : List (String × α)) (k' : String) :
    mapLookup? (a :: as) k' = if a.1 = k' then some a.2 else mapLookup? as k' := by
  unfold mapLookup?
  by_cases ha : a.1 = k'
  · rw [List.find?_cons_of_pos _ (by simpa using ha), if_pos ha]
    rfl
  · rw [List.find?_cons_of_neg _ (by simpa using ha), if_neg ha]

theorem mapLookup_insert (m : List (String × α)) (k k' : String) (v : α) :
    mapLookup? (mapInsert m k v) k' = if k' = k then some v else mapLookup? m k' := by
  induction m with
  | nil =>
    by_cases hk : k' = k
    · rw [if_pos hk]
      show mapLookup? ([] ++ [(k, v)]) k' = some v
      rw [List.nil_append, mapLookup_cons, if_pos hk.symm]
    · rw [if_neg hk]
      show mapLookup? ([] ++ [(k, v)]) k' = mapLookup? [] k'
      rw [List.nil_append, mapLookup_cons, if_neg (fun hc => hk hc.symm)]
  | cons a as ih =>
    by_cases ha : a.1 = k
    · rw [mapInsert_cons_eq a as k v ha]
      by_cases hk : k' = k
      · rw [if_pos hk, mapLookup_cons, if_pos hk.symm]
      · rw [if_neg hk, mapLookup_cons, if_neg (fun hc => hk hc.symm)]
        rw [mapLookup_map_update as k k' v hk]
        rw [mapLookup_cons, if_neg (by rw [ha]; exact fun hc => hk hc.symm)]
    · rw [mapInsert_cons_ne a as k v ha]
      by_cases ha' : a.1 = k'
      · rw [mapLookup_cons, if_pos ha', mapLookup_cons, if_pos ha']
        rw [if_neg (fun hc => ha (ha'.trans hc))]
      · rw [mapLookup_cons, if_neg ha', ih, mapLookup_cons, if_neg ha']

theorem mapLookup_insert_self (m : List (String × α)) (k : String) (v : α) :
    mapLookup? (mapInsert m k v) k = some v := by
  rw [mapLookup_insert, if_pos rfl]

theorem mapLookup_insert_ne (m : List (String × α)) (k k' : String) (v : α)
    (h : k' ≠ k) : mapLookup? (mapInsert m k v) k' = mapLookup? m k' := by
  rw [mapLookup_insert, if_neg h]

theorem mem_mapInsert (m : List (String × α)) (k : String) (v : α) (q : String × α)
    (h : q ∈ mapInsert m k v) : q = (k, v) ∨ q ∈ m := by
  unfold mapInsert at h
  split at h
  · obtain ⟨p, hp, hq⟩ := List.mem_map.mp h
    by_cases hk : p.1 = k
    · rw [if_pos hk] at hq
      exact Or.inl hq.symm
    · rw [if_neg hk] at hq
      exact Or.inr (hq ▸ hp)
  · rcases List.mem_append.mp h with h | h
    · exact Or.inr h
    · exact Or.inl (List.mem_singleton.mp h)

theorem mem_mapErase (m : List (String × α)) (k : String) (q : String × α)
    (h : q ∈ mapErase m k) : q ∈ m :=
  List.mem_of_mem_filter h

theorem mapLookup_mem (m : List (String × α)) (k : String) (v : α)
    (h : mapLookup? m k = some v) : (k, v) ∈ m := by
  unfold mapLookup? at h
  cases hf : m.find? (fun q => q.1 = k) with
  | none => rw [hf] at h; simp at h
  | some q =>
    rw [hf] at h
    have hm := List.mem_of_find?_eq_some hf
    have hp := List.find?_some hf
    simp only [decide_eq_true_eq] at hp
    simp at h
    have hq : q = (k, v) := by
      obtain ⟨q1, q2⟩ := q
      rw [Prod.mk.injEq]
      exact ⟨hp, h⟩
    rw [← hq]
    exact hm

/-!
## Operation-level helper lemmas
-/

theorem writeOperation_of_lookup (r : Badfs.BadFs) (p : String) (e : GoError)
    (h : mapLookup? r.writeErrors (normalizePath p) = some (some e)) :
    r.writeOperation p = (r.delayTrace (normalizePath p), some e) := by
  simp only [Badfs.BadFs.writeOperation, Badfs.BadFs.checkWriteError, Badfs.BadFs.checkError]
  rw [h]

theorem writeOperation_norm_of_lookup (r : Badfs.BadFs) (p : String) (e : GoError)
    (h : mapLookup? r.writeErrors (normalizePath p) = some (some e)) :
    r.writeOperation (normalizePath p) = (r.delayTrace (normalizePath p), some e) := by
  simp only [Badfs.BadFs.writeOperation, Badfs.BadFs.checkWriteError, Badfs.BadFs.checkError]
  rw [normalizePath_idem, h]

/-- C1: with a write error `e` registered for path `p` (probability-1
registration is the only kind this revision has), every write-classified
facade operation on `p` — `Create`, `Mkdir`, `Remove`, `Chmod`, `Chown`,
`Chtimes`, and write-mode `OpenFile` — returns exactly the registered
error value `e` (unwrapped) and never invokes the wrapped provider
(`delegated = false`, and no handle is constructed). -/
theorem C1_write_rule_shortcircuits (r : Badfs.BadFs) (p : String) (e : GoError)
    (src : GoErr) (flag : Nat)
    (h : mapLookup? r.writeErrors (normalizePath p) = some (some e)) :
    ((r.Create p src).1.err = some e ∧ (r.Create p src).1.delegated = false
      ∧ (r.Create p src).2 = none)
    ∧ ((r.Mkdir p src).err = some e ∧ (r.Mkdir p src).delegated = false)
    ∧ ((r.Remove p src).err = some e ∧ (r.Remove p src).delegated = false)
    ∧ ((r.Chmod p src).err = some e ∧ (r.Chmod p src).delegated = false)
    ∧ ((r.Chown p src).err = some e ∧ (r.Chown p src).delegated = false)
    ∧ ((r.Chtimes p src).err = some e ∧ (r.Chtimes p src).delegated = false)
    ∧ (Badfs.isWriteFlag flag = true →
        (r.OpenFile p flag src).1.err = some e
        ∧ (r.OpenFile p flag src).1.delegated = false
        ∧ (r.OpenFile p flag src).2 = none) := by
  have hwr := writeOperation_of_lookup r p e h
  have hwn := writeOperation_norm_of_lookup r p e h
  refine ⟨⟨?_, ?_, ?_⟩, ⟨?_, ?_⟩, ⟨?_, ?_⟩, ⟨?_, ?_⟩, ⟨?_, ?_⟩, ⟨?_, ?_⟩, ?_⟩
  · simp only [Badfs.BadFs.Create, hwr]
  · simp only [Badfs.BadFs.Create, hwr]
  · simp only [Badfs.BadFs.Create, hwr]
  · simp only [Badfs.BadFs.Mkdir, hwn]
  · simp only [Badfs.BadFs.Mkdir, hwn]
  · simp only [Badfs.BadFs.Remove, hwn]
  · simp only [Badfs.BadFs.Remove, hwn]
  · simp only [Badfs.BadFs.Chmod, hwn]
  · simp only [Badfs.BadFs.Chmod, hwn]
  · simp only [Badfs.BadFs.Chown, hwn]
  · simp only [Badfs.BadFs.Chown, hwn]
  · simp only [Badfs.BadFs.Chtimes, hwn]
  · simp only [Badfs.BadFs.Chtimes, hwn]
  · intro hflag
    refine ⟨?_, ?_, ?_⟩
    · simp only [Badfs.BadFs.OpenFile, hflag, if_true, hwn]
    · simp only [Badfs.BadFs.OpenFile, hflag, if_true, hwn]
    · simp only [Badfs.BadFs.OpenFile, hflag, if_true, hwn]

/-- C1 witness: concrete registration, evaluated at `Chmod` and a
write-mode `OpenFile`. -/
theorem C1_witness :
    (mapLookup? (Badfs.New.AddWriteError "/x" (some (GoError.user 5))).writeErrors
        (normalizePath "/x") = some (some (GoError.user 5)))
    ∧ (((Badfs.New.AddWriteError "/x" (some (GoError.user 5))).Chmod "/x" none).err
        = some (GoError.user 5)
      ∧ ((Badfs.New.AddWriteError "/x" (some (GoError.user 5))).Chmod "/x" none).delegated
        = false)
    ∧ (Badfs.isWriteFlag Badfs.O_CREATE = true)
    ∧ (((Badfs.New.AddWriteError "/x" (some (GoError.user 5))).OpenFile "/x" Badfs.O_CREATE
        none).1.err = some (GoError.user 5)) :=
  ⟨by decide,
    (C1_write_rule_shortcircuits (Badfs.New.AddWriteError "/x" (some (GoError.user 5)))
      "/x" (GoError.user 5) none Badfs.O_CREATE (by decide)).2.2.2.1,
    by decide,
    ((C1_write_rule_shortcircuits (Badfs.New.AddWriteError "/x" (some (GoError.user 5)))
      "/x" (GoError.user 5) none Badfs.O_CREATE (by decide)).2.2.2.2.2.2 (by decide)).1⟩

/-- C2: the claim (probability-0 rules never trigger; intermediate
probabilities trigger via uniform sampling) is contradicted by the code:
`RandomError.getError` ignores the stored probability entirely, so a rule
registered with probability 0 (or ½) triggers on every check. -/
theorem C2_probability_ignored :
    ((RndBadfs.New.AddRandomWriteError "/a" (some (GoError.user 7)) 0).checkWriteError "/a"
      = some (GoError.user 7))
    ∧ ((RndBadfs.New.AddRandomWriteError "/a" (some (GoError.user 7)) (1/2)).checkWriteError
        "/a" = some (GoError.user 7))
    ∧ (((RndBadfs.New.AddRandomWriteError "/a" (some (GoError.user 7)) 0).Chmod "/a"
        none).err = some (GoError.user 7))
    ∧ (((RndBadfs.New.AddRandomWriteError "/a" (some (GoError.user 7)) 0).Chmod "/a"
        none).delegated = false) := by
  refine ⟨rfl, rfl, rfl, rfl⟩

/-- C5 counterexample: in the current facade a probability-1 write rule on
the destination path does not affect `Rename` at all — the call delegates
and returns the provider's result — contradicting the claim that `Rename`
consults the destination's write rule. -/
theorem C5_counterexample :
    (((Badfs.New.AddWriteError "/n" (some (GoError.user 3))).Rename "/o" "/n" none).err = none)
    ∧ (((Badfs.New.AddWriteError "/n" (some (GoError.user 3))).Rename "/o" "/n" none).delegated
      = true)
    ∧ (((Badfs.New.AddWriteError "/o" (some (GoError.user 4))).Rename "/o" "/n" none).err
      = some (GoError.user 4))
    ∧ (((Badfs.New.AddWriteError "/o" (some (GoError.user 4))).Rename "/o" "/n"
        none).delegated = false) := by
  refine ⟨rfl, rfl, rfl, rfl⟩

/-- C5 (amended): `Rename(old, new)` consults the write rule of exactly one
of the two paths — the source `old` in this revision — so a rule registered
only under the destination never changes the outcome, while a registered
(non-nil) rule on `old` makes `Rename` return that error without
delegating. -/
theorem C5_rename_checks_source (r : Badfs.BadFs) (o n : String) (e : GoError)
    (eNew : GoErr) (src : GoErr) :
    (mapLookup? r.writeErrors (normalizePath o) = some (some e) →
      (r.Rename o n src).err = some e ∧ (r.Rename o n src).delegated = false)
    ∧ (r.checkWriteError (normalizePath o) = none →
      (r.Rename o n src).err = src ∧ (r.Rename o n src).delegated = true)
    ∧ (normalizePath n ≠ normalizePath o →
      (r.AddWriteError n eNew).Rename o n src = r.Rename o n src) := by
  refine ⟨?_, ?_, ?_⟩
  · intro h
    have hwn := writeOperation_norm_of_lookup r o e h
    constructor
    · simp only [Badfs.BadFs.Rename, hwn]
    · simp only [Badfs.BadFs.Rename, hwn]
  · intro h
    have hwn : r.writeOperation (normalizePath o)
        = (r.delayTrace (normalizePath o), none) := by
      simp only [Badfs.BadFs.writeOperation]
      rw [normalizePath_idem, h]
    constructor
    · simp only [Badfs.BadFs.Rename, hwn]
    · simp only [Badfs.BadFs.Rename, hwn]
  · intro hne
    have hwe : (r.AddWriteError n eNew).writeOperation (normalizePath o)
        = r.writeOperation (normalizePath o) := by
      simp only [Badfs.BadFs.writeOperation, Badfs.BadFs.checkWriteError,
        Badfs.BadFs.checkError, Badfs.BadFs.delayTrace, Badfs.BadFs.AddWriteError]
      rw [mapLookup_insert_ne r.writeErrors (normalizePath n)
        (normalizePath (normalizePath o)) eNew
        (by rw [normalizePath_idem]; exact fun hc => hne hc.symm)]
    simp only [Badfs.BadFs.Rename]
    rw [hwe]

/-- C5 witness for the amended claim. -/
theorem C5_witness :
    (mapLookup? (Badfs.New.AddWriteError "/o" (some (GoError.user 4))).writeErrors
        (normalizePath "/o") = some (some (GoError.user 4)))
    ∧ (((Badfs.New.AddWriteError "/o" (some (GoError.user 4))).Rename "/o" "/n" none).err
        = some (GoError.user 4)
      ∧ ((Badfs.New.AddWriteError "/o" (some (GoError.user 4))).Rename "/o" "/n"
        none).delegated = false)
    ∧ (normalizePath "/n" ≠ normalizePath "/o")
    ∧ ((Badfs.New.AddWriteError "/n" (some (GoError.user 9))).Rename "/o" "/n" none
        = Badfs.New.Rename "/o" "/n" none) :=
  ⟨by decide,
    (C5_rename_checks_source (Badfs.New.AddWriteError "/o" (some (GoError.user 4)))
      "/o" "/n" (GoError.user 4) none none).1 (by decide),
    by decide,
    (C5_rename_checks_source Badfs.New "/o" "/n" (GoError.user 4)
      (some (GoError.user 9)) none).2.2 (by decide)⟩

/-- C8 counterexample: the handle-level `AddLatency` accepts the
non-positive duration 0 — it returns nil and overwrites the prior latency —
contradicting the claim that non-positive durations fail with
`InvalidArgument` at both granularities. -/
theorem C8_counterexample :
    (Badfs.BadFile.mk none none 5).AddLatency 0
      = (none, Badfs.BadFile.mk none none 0) := by
  decide

/-- C8 (amended): the registry's `AddLatency` rejects every non-positive
duration with `InvalidArgument` and leaves the registry unchanged, while
the handle's `AddLatency` rejects only strictly negative durations (zero is
accepted and replaces the prior latency); in both cases a rejected call
alters nothing and a successful call replaces the prior registration. -/
theorem C8_latency_validation (r : Badfs.BadFs) (b : Badfs.BadFile) (name : String)
    (d : Int) :
    (d ≤ 0 → r.AddLatency name d = (some GoError.invalidLatency, r))
    ∧ (0 < d → (r.AddLatency name d).1 = none
        ∧ mapLookup? ((r.AddLatency name d).2).latencies (normalizePath name) = some d)
    ∧ (d < 0 → b.AddLatency d = (some GoError.invalidLatency, b))
    ∧ (0 ≤ d → (b.AddLatency d).1 = none ∧ ((b.AddLatency d).2).latency = d) := by
  refine ⟨?_, ?_, ?_, ?_⟩
  · intro hd
    unfold Badfs.BadFs.AddLatency
    rw [if_pos hd]
  · intro hd
    unfold Badfs.BadFs.AddLatency
    rw [if_neg (by omega)]
    exact ⟨rfl, mapLookup_insert_self _ _ _⟩
  · intro hd
    unfold Badfs.BadFile.AddLatency
    rw [if_pos hd]
  · intro hd
    unfold Badfs.BadFile.AddLatency
    rw [if_neg (by omega)]
    exact ⟨rfl, rfl⟩

/-- C8 witness for the amended claim. -/
theorem C8_witness :
    ((0 : Int) ≤ 0 ∧ ((Badfs.BadFile.mk none none 5).AddLatency 0).1 = none
      ∧ (((Badfs.BadFile.mk none none 5).AddLatency 0).2).latency = 0)
    ∧ ((-2 : Int) ≤ 0
      ∧ Badfs.New.AddLatency "/a" (-2) = (some GoError.invalidLatency, Badfs.New))
    ∧ ((0 : Int) < 7 ∧ (Badfs.New.AddLatency "/a" 7).1 = none
      ∧ mapLookup? ((Badfs.New.AddLatency "/a" 7).2).latencies (normalizePath "/a")
        = some 7)
    ∧ ((-1 : Int) < 0 ∧ (Badfs.BadFile.mk none none 5).AddLatency (-1)
        = (some GoError.invalidLatency, Badfs.BadFile.mk none none 5)) :=
  ⟨⟨by decide, (C8_latency_validation Badfs.New (Badfs.BadFile.mk none none 5) "/a" 0).2.2.2
      (by decide)⟩,
    ⟨by decide, (C8_latency_validation Badfs.New (Badfs.BadFile.mk none none 5) "/a"
      (-2)).1 (by decide)⟩,
    ⟨by decide, (C8_latency_validation Badfs.New (Badfs.BadFile.mk none none 5) "/a" 7).2.1
      (by decide)⟩,
    ⟨by decide, (C8_latency_validation Badfs.New (Badfs.BadFile.mk none none 5) "/a"
      (-1)).2.2.1 (by decide)⟩⟩

/-- C10 (amended): a write or read rule registered with the nil error value
never triggers through `checkError`: the checkError-mediated write- and
read-classified operations on the path delegate to the provider unchanged,
and `GetWriteError`/`GetReadError` report the not-found error instead of
returning the nil value as a registered error — except `RemoveAll` and
`MkdirAll`, whose write-registry scan returns the stored value of any
matching binding without delegating, so when the first matching binding is
nil-valued they return nil (reporting success) without ever invoking the
wrapped provider. -/
theorem C10_nil_rule_is_inert (r : Badfs.BadFs) (p : String) (src : GoErr) :
    (mapLookup? r.writeErrors (normalizePath p) = some none →
      r.checkWriteError (normalizePath p) = none
      ∧ ((r.Chmod p src).delegated = true ∧ (r.Chmod p src).err = src)
      ∧ ((r.Mkdir p src).delegated = true ∧ (r.Mkdir p src).err = src)
      ∧ ((r.Remove p src).delegated = true ∧ (r.Remove p src).err = src)
      ∧ ((r.Create p src).1.delegated = true ∧ (r.Create p src).1.err = src)
      ∧ r.GetWriteError p = (none, some (GoError.notRegistered (normalizePath p)))
      ∧ (∀ k, r.writeErrors.find? (fun q => Badfs.pathMatch (normalizePath p) q.1)
            = some (k, none) →
          ((r.RemoveAll p src).err = none ∧ (r.RemoveAll p src).delegated = false)
          ∧ ((r.MkdirAll p src).err = none ∧ (r.MkdirAll p src).delegated = false)))
    ∧ (mapLookup? r.readErrors (normalizePath p) = some none →
      r.checkReadError (normalizePath p) = none
      ∧ ((r.Stat p src).delegated = true ∧ (r.Stat p src).err = src)
      ∧ ((r.Open p src).1.delegated = true ∧ (r.Open p src).1.err = src)
      ∧ r.GetReadError p = (none, some (GoError.notRegistered (normalizePath p)))) := by
  constructor
  · intro hw
    have hchk : r.checkWriteError (normalizePath p) = none := by
      simp only [Badfs.BadFs.checkWriteError, Badfs.BadFs.checkError]
      rw [hw]
    have hwn : r.writeOperation (normalizePath p)
        = (r.delayTrace (normalizePath p), none) := by
      simp only [Badfs.BadFs.writeOperation]
      rw [normalizePath_idem, hchk]
    have hwr : r.writeOperation p = (r.delayTrace (normalizePath p), none) := by
      simp only [Badfs.BadFs.writeOperation]
      rw [hchk]
    refine ⟨hchk, ⟨?_, ?_⟩, ⟨?_, ?_⟩, ⟨?_, ?_⟩, ⟨?_, ?_⟩, ?_, ?_⟩
    · simp only [Badfs.BadFs.Chmod, hwn]
    · simp only [Badfs.BadFs.Chmod, hwn]
    · simp only [Badfs.BadFs.Mkdir, hwn]
    · simp only [Badfs.BadFs.Mkdir, hwn]
    · simp only [Badfs.BadFs.Remove, hwn]
    · simp only [Badfs.BadFs.Remove, hwn]
    · cases src with
      | none => simp [Badfs.BadFs.Create, hwr]
      | some err => simp [Badfs.BadFs.Create, hwr]
    · cases src with
      | none => simp [Badfs.BadFs.Create, hwr]
      | some err => simp [Badfs.BadFs.Create, hwr]
    · simp only [Badfs.BadFs.GetWriteError, Badfs.BadFs.getError]
      rw [hw]
    · intro k hq
      refine ⟨⟨?_, ?_⟩, ⟨?_, ?_⟩⟩ <;>
        simp [Badfs.BadFs.RemoveAll, Badfs.BadFs.MkdirAll, hq]
  · intro hr
    have hchk : r.checkReadError (normalizePath p) = none := by
      simp only [Badfs.BadFs.checkReadError, Badfs.BadFs.checkError]
      rw [hr]
    have hrn : r.readOperation (normalizePath p)
        = (r.delayTrace (normalizePath p), none) := by
      simp only [Badfs.BadFs.readOperation]
      rw [normalizePath_idem, hchk]
    refine ⟨hchk, ⟨?_, ?_⟩, ⟨?_, ?_⟩, ?_⟩
    · simp only [Badfs.BadFs.Stat, hrn]
    · simp only [Badfs.BadFs.Stat, hrn]
    · cases src with
      | none => simp [Badfs.BadFs.Open, hrn]
      | some err => simp [Badfs.BadFs.Open, hrn]
    · cases src with
      | none => simp [Badfs.BadFs.Open, hrn]
      | some err => simp [Badfs.BadFs.Open, hrn]
    · simp only [Badfs.BadFs.GetReadError, Badfs.BadFs.getError]
      rw [hr]

/-- C10 witness: nil write and read rules registered for `"/a"`. -/
theorem C10_witness :
    (mapLookup? ((Badfs.New.AddWriteError "/a" none).AddReadError "/a" none).writeErrors
        (normalizePath "/a") = some none)
    ∧ (mapLookup? ((Badfs.New.AddWriteError "/a" none).AddReadError "/a" none).readErrors
        (normalizePath "/a") = some none)
    ∧ ((((Badfs.New.AddWriteError "/a" none).AddReadError "/a" none).Chmod "/a"
        (some (GoError.provider 3))).delegated = true
      ∧ (((Badfs.New.AddWriteError "/a" none).AddReadError "/a" none).Chmod "/a"
        (some (GoError.provider 3))).err = some (GoError.provider 3))
    ∧ ((((Badfs.New.AddWriteError "/a" none).AddReadError "/a" none).Stat "/a"
        (some (GoError.provider 4))).delegated = true
      ∧ (((Badfs.New.AddWriteError "/a" none).AddReadError "/a" none).Stat "/a"
        (some (GoError.provider 4))).err = some (GoError.provider 4))
    ∧ ((((Badfs.New.AddWriteError "/a" none).AddReadError "/a" none).RemoveAll "/a"
        (some (GoError.provider 3))).err = none
      ∧ (((Badfs.New.AddWriteError "/a" none).AddReadError "/a" none).RemoveAll "/a"
        (some (GoError.provider 3))).delegated = false) :=
  ⟨by decide, by decide,
    ((C10_nil_rule_is_inert ((Badfs.New.AddWriteError "/a" none).AddReadError "/a" none)
      "/a" (some (GoError.provider 3))).1 (by decide)).2.1,
    ((C10_nil_rule_is_inert ((Badfs.New.AddWriteError "/a" none).AddReadError "/a" none)
      "/a" (some (GoError.provider 4))).2 (by decide)).2.1,
    (((C10_nil_rule_is_inert ((Badfs.New.AddWriteError "/a" none).AddReadError "/a" none)
      "/a" (some (GoError.provider 3))).1 (by decide)).2.2.2.2.2.2 "/a" (by decide)).1⟩

/-- C10 counterexample to the original claim: with a nil-valued write rule
registered for `"/a"`, the write-classified `RemoveAll` and `MkdirAll` do
NOT pass through to the wrapped provider — their registry scan finds the
matching nil binding and returns it, so they report success (`none`) with
`delegated = false` even though the provider would have returned an error. -/
theorem C10_counterexample :
    (mapLookup? (Badfs.New.AddWriteError "/a" none).writeErrors (normalizePath "/a")
      = some none)
    ∧ (((Badfs.New.AddWriteError "/a" none).RemoveAll "/a"
        (some (GoError.provider 1))).delegated = false)
    ∧ (((Badfs.New.AddWriteError "/a" none).RemoveAll "/a"
        (some (GoError.provider 1))).err = none)
    ∧ (((Badfs.New.AddWriteError "/a" none).MkdirAll "/a"
        (some (GoError.provider 1))).delegated = false)
    ∧ (((Badfs.New.AddWriteError "/a" none).MkdirAll "/a"
        (some (GoError.provider 1))).err = none) := by
  refine ⟨?_, ?_, ?_, ?_, ?_⟩ <;> decide

/-- C4: `RemoveAll(root)` and `MkdirAll(root)` first apply the registered
delay of every registered path equal to the (normalized) root or lexically
prefixed by it plus a separator, then scan the write-error registry with
the same criterion: on the first matching binding they return its stored
error without invoking the provider; with no matching binding they pass
straight through (the provider's own result — e.g. for a nonexistent root —
is returned unchanged). -/
theorem C4_removeAll_mkdirAll (r : Badfs.BadFs) (root : String) (src : GoErr) :
    ((r.RemoveAll root src).delays
      = (r.latencies.filter (fun q => Badfs.pathMatch (normalizePath root) q.1)).map
          (fun q => q.2))
    ∧ ((r.MkdirAll root src).delays
      = (r.latencies.filter (fun q => Badfs.pathMatch (normalizePath root) q.1)).map
          (fun q => q.2))
    ∧ (∀ q, r.writeErrors.find? (fun q2 => Badfs.pathMatch (normalizePath root) q2.1)
          = some q →
        ((r.RemoveAll root src).err = q.2 ∧ (r.RemoveAll root src).delegated = false)
        ∧ ((r.MkdirAll root src).err = q.2 ∧ (r.MkdirAll root src).delegated = false))
    ∧ ((∀ q ∈ r.writeErrors, Badfs.pathMatch (normalizePath root) q.1 = false) →
        ((r.RemoveAll root src).delegated = true ∧ (r.RemoveAll root src).err = src)
        ∧ ((r.MkdirAll root src).delegated = true ∧ (r.MkdirAll root src).err = src)) := by
  refine ⟨?_, ?_, ?_, ?_⟩
  · rcases hf : r.writeErrors.find? (fun q2 => Badfs.pathMatch (normalizePath root) q2.1)
      with _ | q
    · simp [Badfs.BadFs.RemoveAll, hf]
    · simp [Badfs.BadFs.RemoveAll, hf]
  · rcases hf : r.writeErrors.find? (fun q2 => Badfs.pathMatch (normalizePath root) q2.1)
      with _ | q
    · simp [Badfs.BadFs.MkdirAll, hf]
    · simp [Badfs.BadFs.MkdirAll, hf]
  · intro q hq
    refine ⟨⟨?_, ?_⟩, ⟨?_, ?_⟩⟩
    · simp [Badfs.BadFs.RemoveAll, hq]
    · simp [Badfs.BadFs.RemoveAll, hq]
    · simp [Badfs.BadFs.MkdirAll, hq]
    · simp [Badfs.BadFs.MkdirAll, hq]
  · intro hnone
    have hf : r.writeErrors.find? (fun q2 => Badfs.pathMatch (normalizePath root) q2.1)
        = none := by
      rw [List.find?_eq_none]
      intro x hx
      simp [hnone x hx]
    refine ⟨⟨?_, ?_⟩, ⟨?_, ?_⟩⟩
    · simp [Badfs.BadFs.RemoveAll, hf]
    · simp [Badfs.BadFs.RemoveAll, hf]
    · simp [Badfs.BadFs.MkdirAll, hf]
    · simp [Badfs.BadFs.MkdirAll, hf]

/-- C4 witness: a registry with matching and non-matching bindings. -/
theorem C4_witness :
    ((Badfs.BadFs.mk [("/z", some (GoError.user 1)), ("/d/f", some (GoError.user 2))] []
        [("/d", 5), ("/d/f", 7), ("/e", 9)]).RemoveAll "/d" none).delays = [5, 7]
    ∧ ((Badfs.BadFs.mk [("/z", some (GoError.user 1)), ("/d/f", some (GoError.user 2))] []
        [("/d", 5), ("/d/f", 7), ("/e", 9)]).writeErrors.find?
          (fun q2 => Badfs.pathMatch (normalizePath "/d") q2.1)
        = some ("/d/f", some (GoError.user 2)))
    ∧ (((Badfs.BadFs.mk [("/z", some (GoError.user 1)), ("/d/f", some (GoError.user 2))] []
        [("/d", 5), ("/d/f", 7), ("/e", 9)]).RemoveAll "/d" none).err
          = some (GoError.user 2)
      ∧ ((Badfs.BadFs.mk [("/z", some (GoError.user 1)), ("/d/f", some (GoError.user 2))] []
        [("/d", 5), ("/d/f", 7), ("/e", 9)]).RemoveAll "/d" none).delegated = false)
    ∧ (((Badfs.BadFs.mk [("/z", some (GoError.user 1)), ("/d/f", some (GoError.user 2))] []
        [("/d", 5), ("/d/f", 7), ("/e", 9)]).MkdirAll "/q" (some (GoError.provider 8))).delegated
          = true
      ∧ ((Badfs.BadFs.mk [("/z", some (GoError.user 1)), ("/d/f", some (GoError.user 2))] []
        [("/d", 5), ("/d/f", 7), ("/e", 9)]).MkdirAll "/q"
          (some (GoError.provider 8))).err = some (GoError.provider 8)) :=
  ⟨by decide, by decide,
    ((C4_removeAll_mkdirAll
      (Badfs.BadFs.mk [("/z", some (GoError.user 1)), ("/d/f", some (GoError.user 2))] []
        [("/d", 5), ("/d/f", 7), ("/e", 9)]) "/d" none).2.2.1
      ("/d/f", some (GoError.user 2)) (by decide)).1,
    ((C4_removeAll_mkdirAll
      (Badfs.BadFs.mk [("/z", some (GoError.user 1)), ("/d/f", some (GoError.user 2))] []
        [("/d", 5), ("/d/f", 7), ("/e", 9)]) "/q" (some (GoError.provider 8))).2.2.2
      (by decide)).2⟩

/-- C7: on a triggered handle-local error, the byte-transferring handle
operations (`Read`, `ReadAt`, `Write`, `WriteAt`, `Seek`) return a negative
count together with exactly the handle's error, the non-transferring
operations (`Close`, `Sync`, `Truncate`, `Stat`, `Readdir`,
`Readdirnames`) return only the error, and in every triggered case the
wrapped handle is not invoked. -/
theorem C7_handle_error_semantics (b : Badfs.BadFile) (e eW : GoError)
    (srcN : Int × GoErr) (srcU : GoErr) (off size : Int) (whence : Nat) :
    (b.readError = some e →
      ((b.Read srcN).n < 0 ∧ (b.Read srcN).err = some e ∧ (b.Read srcN).delegated = false)
      ∧ ((b.ReadAt off srcN).n < 0 ∧ (b.ReadAt off srcN).err = some e
        ∧ (b.ReadAt off srcN).delegated = false)
      ∧ ((b.Seek off whence srcN).n < 0 ∧ (b.Seek off whence srcN).err = some e
        ∧ (b.Seek off whence srcN).delegated = false)
      ∧ ((b.Stat srcU).err = some e ∧ (b.Stat srcU).delegated = false)
      ∧ ((b.Readdir srcU).err = some e ∧ (b.Readdir srcU).delegated = false)
      ∧ ((b.Readdirnames srcU).err = some e ∧ (b.Readdirnames srcU).delegated = false))
    ∧ (b.writeError = some eW →
      ((b.Write srcN).n < 0 ∧ (b.Write srcN).err = some eW
        ∧ (b.Write srcN).delegated = false)
      ∧ ((b.WriteAt off srcN).n < 0 ∧ (b.WriteAt off srcN).err = some eW
        ∧ (b.WriteAt off srcN).delegated = false)
      ∧ ((b.Close srcU).err = some eW ∧ (b.Close srcU).delegated = false)
      ∧ ((b.Sync srcU).err = some eW ∧ (b.Sync srcU).delegated = false)
      ∧ ((b.Truncate size srcU).err = some eW
        ∧ (b.Truncate size srcU).delegated = false)) := by
  constructor
  · intro h
    refine ⟨⟨?_, ?_, ?_⟩, ⟨?_, ?_, ?_⟩, ⟨?_, ?_, ?_⟩, ⟨?_, ?_⟩, ⟨?_, ?_⟩, ⟨?_, ?_⟩⟩ <;>
      simp [Badfs.BadFile.Read, Badfs.BadFile.ReadAt, Badfs.BadFile.Seek,
        Badfs.BadFile.Stat, Badfs.BadFile.Readdir, Badfs.BadFile.Readdirnames, h]
  · intro h
    refine ⟨⟨?_, ?_, ?_⟩, ⟨?_, ?_, ?_⟩, ⟨?_, ?_⟩, ⟨?_, ?_⟩, ⟨?_, ?_⟩⟩ <;>
      simp [Badfs.BadFile.Write, Badfs.BadFile.WriteAt, Badfs.BadFile.Close,
        Badfs.BadFile.Sync, Badfs.BadFile.Truncate, h]

/-- C7 witness: a handle with both direction errors set. -/
theorem C7_witness :
    ((Badfs.BadFile.mk (some (GoError.user 2)) (some (GoError.user 1)) 0).readError
      = some (GoError.user 1))
    ∧ ((Badfs.BadFile.mk (some (GoError.user 2)) (some (GoError.user 1)) 0).writeError
      = some (GoError.user 2))
    ∧ (((Badfs.BadFile.mk (some (GoError.user 2)) (some (GoError.user 1)) 0).Read
        (4, none)).n < 0
      ∧ ((Badfs.BadFile.mk (some (GoError.user 2)) (some (GoError.user 1)) 0).Read
        (4, none)).err = some (GoError.user 1)
      ∧ ((Badfs.BadFile.mk (some (GoError.user 2)) (some (GoError.user 1)) 0).Read
        (4, none)).delegated = false)
    ∧ (((Badfs.BadFile.mk (some (GoError.user 2)) (some (GoError.user 1)) 0).Close
        none).err = some (GoError.user 2)
      ∧ ((Badfs.BadFile.mk (some (GoError.user 2)) (some (GoError.user 1)) 0).Close
        none).delegated = false) :=
  ⟨by decide, by decide,
    ((C7_handle_error_semantics
      (Badfs.BadFile.mk (some (GoError.user 2)) (some (GoError.user 1)) 0)
      (GoError.user 1) (GoError.user 2) (4, none) none 0 0 0).1 (by decide)).1,
    ((C7_handle_error_semantics
      (Badfs.BadFile.mk (some (GoError.user 2)) (some (GoError.user 1)) 0)
      (GoError.user 1) (GoError.user 2) (4, none) none 0 0 0).2 (by decide)).2.2.1⟩

/-- C3 counterexample: after a successful symlink from a fresh wrapper,
the destination acquires a latency binding (zero, reported found by
`GetLatency`) although the source has no latency rule registered — so the
destination's rules are not "exactly those registered for the source". -/
theorem C3_counterexample :
    ((Badfs.New.SymlinkIfPossible "/a" "/b" true none).1.err = none)
    ∧ (((Badfs.New.SymlinkIfPossible "/a" "/b" true none).2).GetLatency "/b" = (0, none))
    ∧ (((Badfs.New.SymlinkIfPossible "/a" "/b" true none).2).GetLatency "/a"
      = (0, some (GoError.noLatency "/a"))) := by
  refine ⟨rfl, rfl, rfl⟩

/-- C3 (amended): whenever `SymlinkIfPossible(src, dst)` succeeds, the
registry bindings for `dst` are set, before the call returns, to the
zero-defaulted lookups of `src`'s bindings: rules registered on `src` are
copied verbatim — in particular `SetReadError(src, eX, 1.0)` makes
`GetReadError(dst)` return `eX` — but when `src` lacks a rule for some
kind, `dst` receives a binding holding the zero value (nil error / zero
duration), which `src` itself does not have. -/
theorem C3_symlink_clones_rules (r : Badfs.BadFs) (s d : String) (lok : Bool)
    (src : GoErr)
    (h : ((r.SymlinkIfPossible s d lok src).1).err = none) :
    mapLookup? ((r.SymlinkIfPossible s d lok src).2).writeErrors (normalizePath d)
      = some (mapLookupD r.writeErrors (normalizePath s) none)
    ∧ mapLookup? ((r.SymlinkIfPossible s d lok src).2).readErrors (normalizePath d)
      = some (mapLookupD r.readErrors (normalizePath s) none)
    ∧ mapLookup? ((r.SymlinkIfPossible s d lok src).2).latencies (normalizePath d)
      = some (mapLookupD r.latencies (normalizePath s) 0)
    ∧ (∀ eX, mapLookup? r.readErrors (normalizePath s) = some (some eX) →
        ((((r.SymlinkIfPossible s d lok src).2).GetReadError d).1 = some eX)) := by
  rcases hw : r.writeOperation (normalizePath s) with ⟨ds, we⟩
  cases we with
  | some err =>
    exfalso
    simp [Badfs.BadFs.SymlinkIfPossible, hw] at h
  | none =>
    cases lok with
    | false =>
      exfalso
      simp [Badfs.BadFs.SymlinkIfPossible, hw] at h
    | true =>
      cases src with
      | some err =>
        exfalso
        simp [Badfs.BadFs.SymlinkIfPossible, hw] at h
      | none =>
        have hst : (r.SymlinkIfPossible s d true none).2
            = r.copyErrors (normalizePath s) (normalizePath d) := by
          simp [Badfs.BadFs.SymlinkIfPossible, hw]
        rw [hst]
        refine ⟨?_, ?_, ?_, ?_⟩
        · simp only [Badfs.BadFs.copyErrors]
          exact mapLookup_insert_self _ _ _
        · simp only [Badfs.BadFs.copyErrors]
          exact mapLookup_insert_self _ _ _
        · simp only [Badfs.BadFs.copyErrors]
          exact mapLookup_insert_self _ _ _
        · intro eX hX
          simp only [Badfs.BadFs.GetReadError, Badfs.BadFs.getError, Badfs.BadFs.copyErrors]
          rw [mapLookup_insert_self]
          unfold mapLookupD
          rw [hX]
          rfl

/-- C3 witness for the amended claim: the read-error scenario of the spec. -/
theorem C3_witness :
    (((Badfs.New.AddReadError "/a" (some (GoError.user 9))).SymlinkIfPossible "/a" "/b"
        true none).1.err = none)
    ∧ (mapLookup? (Badfs.New.AddReadError "/a" (some (GoError.user 9))).readErrors
        (normalizePath "/a") = some (some (GoError.user 9)))
    ∧ ((((Badfs.New.AddReadError "/a" (some (GoError.user 9))).SymlinkIfPossible "/a" "/b"
        true none).2).GetReadError "/b").1 = some (GoError.user 9) :=
  ⟨by decide, by decide,
    (C3_symlink_clones_rules (Badfs.New.AddReadError "/a" (some (GoError.user 9)))
      "/a" "/b" true none (by decide)).2.2.2 (GoError.user 9) (by decide)⟩

/-!
## C6: the latency-positivity invariant

`FsOp` enumerates the registry-mutating public operations of the wrapper
(all other facade methods only read the registry — their embeddings above
take the state and return results without a new state).
-/

inductive FsOp where
  | addWriteError (name : String) (err : GoErr)
  | delWriteError (name : String)
  | addReadError (name : String) (err : GoErr)
  | delReadError (name : String)
  | addLatency (name : String) (d : Int)
  | delLatency (name : String)
  | symlink (name linkName : String) (linkerOk : Bool) (src : GoErr)
deriving DecidableEq, Repr

/-- State transition of one public operation. -/
def FsOp.step (r : Badfs.BadFs) : FsOp → Badfs.BadFs
  | .addWriteError n e => r.AddWriteError n e
  | .delWriteError n => r.DelWriteError n
  | .addReadError n e => r.AddReadError n e
  | .delReadError n => r.DelReadError n
  | .addLatency n d => (r.AddLatency n d).2
  | .delLatency n => r.DelLatency n
  | .symlink n l ok src => (r.SymlinkIfPossible n l ok src).2

/-- Run a sequence of public operations from a fresh wrapper. -/
def runOps (ops : List FsOp) : Badfs.BadFs := ops.foldl FsOp.step Badfs.New

/-- Whether a sequence contains a symlink operation. -/
def hasSymlink : List FsOp → Bool
  | [] => false
  | FsOp.symlink _ _ _ _ :: _ => true
  | _ :: rest => hasSymlink rest

theorem step_latencies_nonneg (r : Badfs.BadFs) (op : FsOp)
    (h : ∀ q ∈ r.latencies, 0 ≤ q.2) :
    ∀ q ∈ (FsOp.step r op).latencies, 0 ≤ q.2 := by
  intro q hq
  cases op with
  | addWriteError n e => exact h q hq
  | delWriteError n => exact h q hq
  | addReadError n e => exact h q hq
  | delReadError n => exact h q hq
  | delLatency n =>
    exact h q (mem_mapErase _ _ _ hq)
  | addLatency n d =>
    simp only [FsOp.step, Badfs.BadFs.AddLatency] at hq
    by_cases hd : d ≤ 0
    · rw [if_pos hd] at hq
      exact h q hq
    · rw [if_neg hd] at hq
      rcases mem_mapInsert _ _ _ _ hq with hq | hq
      · rw [hq]
        omega
      · exact h q hq
  | symlink n l ok src =>
    simp only [FsOp.step] at hq
    rcases hw : r.writeOperation (normalizePath n) with ⟨ds, we⟩
    cases we with
    | some err =>
      simp [Badfs.BadFs.SymlinkIfPossible, hw] at hq
      exact h q hq
    | none =>
      cases ok with
      | false =>
        simp [Badfs.BadFs.SymlinkIfPossible, hw] at hq
        exact h q hq
      | true =>
        cases src with
        | some err =>
          simp [Badfs.BadFs.SymlinkIfPossible, hw] at hq
          exact h q hq
        | none =>
          have hst : (r.SymlinkIfPossible n l true none).2
              = r.copyErrors (normalizePath n) (normalizePath l) := by
            simp [Badfs.BadFs.SymlinkIfPossible, hw]
          rw [hst] at hq
          simp only [Badfs.BadFs.copyErrors] at hq
          rcases mem_mapInsert _ _ _ _ hq with hq | hq
          · rw [hq]
            rcases hl : mapLookup? r.latencies (normalizePath n) with _ | v
            · simp [mapLookupD, hl]
            · have := h _ (mapLookup_mem _ _ _ hl)
              simp only [mapLookupD, hl]
              exact this
          · exact h q hq

theorem step_latencies_pos (r : Badfs.BadFs) (op : FsOp)
    (hop : ∀ n l ok src, op ≠ FsOp.symlink n l ok src)
    (h : ∀ q ∈ r.latencies, 0 < q.2) :
    ∀ q ∈ (FsOp.step r op).latencies, 0 < q.2 := by
  intro q hq
  cases op with
  | addWriteError n e => exact h q hq
  | delWriteError n => exact h q hq
  | addReadError n e => exact h q hq
  | delReadError n => exact h q hq
  | delLatency n => exact h q (mem_mapErase _ _ _ hq)
  | addLatency n d =>
    simp only [FsOp.step, Badfs.BadFs.AddLatency] at hq
    by_cases hd : d ≤ 0
    · rw [if_pos hd] at hq
      exact h q hq
    · rw [if_neg hd] at hq
      rcases mem_mapInsert _ _ _ _ hq with hq | hq
      · rw [hq]
        omega
      · exact h q hq
  | symlink n l ok src => exact absurd rfl (hop n l ok src)

theorem foldl_latencies_nonneg (ops : List FsOp) :
    ∀ r : Badfs.BadFs, (∀ q ∈ r.latencies, 0 ≤ q.2) →
    ∀ q ∈ (ops.foldl FsOp.step r).latencies, 0 ≤ q.2 := by
  induction ops with
  | nil => intro r h; exact h
  | cons op rest ih =>
    intro r h
    rw [List.foldl_cons]
    exact ih (FsOp.step r op) (step_latencies_nonneg r op h)

theorem foldl_latencies_pos (ops : List FsOp) (hsym : hasSymlink ops = false) :
    ∀ r : Badfs.BadFs, (∀ q ∈ r.latencies, 0 < q.2) →
    ∀ q ∈ (ops.foldl FsOp.step r).latencies, 0 < q.2 := by
  induction ops with
  | nil => intro r h; exact h
  | cons op rest ih =>
    intro r h
    rw [List.foldl_cons]
    have hop : ∀ n l ok src, op ≠ FsOp.symlink n l ok src := by
      intro n l ok src hc
      rw [hc] at hsym
      simp [hasSymlink] at hsym
    have hrest : hasSymlink rest = false := by
      cases op with
      | symlink n l ok src => exact absurd rfl (hop n l ok src)
      | addWriteError n e => exact hsym
      | delWriteError n => exact hsym
      | addReadError n e => exact hsym
      | delReadError n => exact hsym
      | addLatency n d => exact hsym
      | delLatency n => exact hsym
    exact ih hrest (FsOp.step r op) (step_latencies_pos r op hop h)

/-- C6 counterexample: a successful symlink from a fresh wrapper stores the
zero duration in the latency registry — the invariant "the registry never
holds a non-positive latency" fails for sequences containing rule cloning. -/
theorem C6_counterexample :
    ("/b", (0 : Int)) ∈ (runOps [FsOp.symlink "/a" "/b" true none]).latencies
    ∧ ¬(0 < (0 : Int)) := by
  refine ⟨by decide, by decide⟩

/-- C6 (amended): for every sequence of public operations from a fresh
wrapper, every duration stored in the latency registry is nonnegative, and
strictly positive whenever the sequence contains no symlink — `AddLatency`
admits only positive durations, but `SymlinkIfPossible`'s rule cloning can
copy the zero default when the source path has no latency rule. -/
theorem C6_latency_invariant (ops : List FsOp) (p : String) (d : Int)
    (h : (p, d) ∈ (runOps ops).latencies) :
    0 ≤ d ∧ (hasSymlink ops = false → 0 < d) := by
  constructor
  · have := foldl_latencies_nonneg ops Badfs.New (by intro q hq; simp [Badfs.New] at hq)
      (p, d) h
    exact this
  · intro hsym
    have := foldl_latencies_pos ops hsym Badfs.New (by intro q hq; simp [Badfs.New] at hq)
      (p, d) h
    exact this

/-- C6 witness for the amended claim. -/
theorem C6_witness :
    ("/a", (5 : Int)) ∈ (runOps [FsOp.addLatency "/a" 5]).latencies
    ∧ (0 : Int) ≤ 5
    ∧ (hasSymlink [FsOp.addLatency "/a" 5] = false)
    ∧ (0 : Int) < 5 :=
  ⟨by decide, (C6_latency_invariant [FsOp.addLatency "/a" 5] "/a" 5 (by decide)).1,
    by decide,
    (C6_latency_invariant [FsOp.addLatency "/a" 5] "/a" 5 (by decide)).2 (by decide)⟩

/-- C9 counterexample: `Create` does not normalize the path it uses for the
handle snapshot, so two spellings of the same canonical path (here
`"/x/../b"` and `"/b"`) do not resolve to the same registry entry: the
handle created under the alias misses the read rule registered under the
canonical path. -/
theorem C9_counterexample :
    normalizePath "/x/../b" = "/b"
    ∧ (((Badfs.New.AddReadError "/b" (some (GoError.user 2))).Create "/b" none).2
        = some (Badfs.NewBadFile (some (GoError.user 2)) none 0))
    ∧ (((Badfs.New.AddReadError "/b" (some (GoError.user 2))).Create "/x/../b" none).2
        = some (Badfs.NewBadFile none none 0)) := by
  refine ⟨by decide, by decide, by decide⟩

/-- C9 (amended): any two path spellings with the same canonical
(`filepath.Clean`) form resolve to the same registry entry in every
registry mutation and query and behave identically in every facade
operation — with the one exception of `Create`, whose fault decision still
agrees (its `OpRes` is equal) but whose provider call and handle snapshot
use the raw path, so the returned handle's initial fault state can differ
between spellings. -/
theorem C9_normalization (r : Badfs.BadFs) (p1 p2 n2 : String) (e : GoErr) (d : Int)
    (src : GoErr) (flag : Nat) (lok lok2 : Bool)
    (h : normalizePath p1 = normalizePath p2) :
    r.AddWriteError p1 e = r.AddWriteError p2 e
    ∧ r.DelWriteError p1 = r.DelWriteError p2
    ∧ r.AddReadError p1 e = r.AddReadError p2 e
    ∧ r.DelReadError p1 = r.DelReadError p2
    ∧ r.AddLatency p1 d = r.AddLatency p2 d
    ∧ r.DelLatency p1 = r.DelLatency p2
    ∧ r.GetLatency p1 = r.GetLatency p2
    ∧ r.GetWriteError p1 = r.GetWriteError p2
    ∧ r.GetReadError p1 = r.GetReadError p2
    ∧ r.Chtimes p1 src = r.Chtimes p2 src
    ∧ r.Chmod p1 src = r.Chmod p2 src
    ∧ r.Chown p1 src = r.Chown p2 src
    ∧ r.Stat p1 src = r.Stat p2 src
    ∧ r.LstatIfPossible p1 lok lok2 src = r.LstatIfPossible p2 lok lok2 src
    ∧ r.SymlinkIfPossible p1 n2 lok src = r.SymlinkIfPossible p2 n2 lok src
    ∧ r.ReadlinkIfPossible p1 lok src = r.ReadlinkIfPossible p2 lok src
    ∧ r.Rename p1 n2 src = r.Rename p2 n2 src
    ∧ r.RemoveAll p1 src = r.RemoveAll p2 src
    ∧ r.Remove p1 src = r.Remove p2 src
    ∧ r.OpenFile p1 flag src = r.OpenFile p2 flag src
    ∧ r.Open p1 src = r.Open p2 src
    ∧ r.Mkdir p1 src = r.Mkdir p2 src
    ∧ r.MkdirAll p1 src = r.MkdirAll p2 src
    ∧ (r.Create p1 src).1 = (r.Create p2 src).1 := by
  refine ⟨?_, ?_, ?_, ?_, ?_, ?_, ?_, ?_, ?_, ?_, ?_, ?_, ?_, ?_, ?_, ?_, ?_, ?_, ?_,
    ?_, ?_, ?_, ?_, ?_⟩
  · simp only [Badfs.BadFs.AddWriteError]
    rw [h]
  · simp only [Badfs.BadFs.DelWriteError]
    rw [h]
  · simp only [Badfs.BadFs.AddReadError]
    rw [h]
  · simp only [Badfs.BadFs.DelReadError]
    rw [h]
  · simp only [Badfs.BadFs.AddLatency]
    rw [h]
  · simp only [Badfs.BadFs.DelLatency]
    rw [h]
  · simp only [Badfs.BadFs.GetLatency]
    rw [h]
  · simp only [Badfs.BadFs.GetWriteError]
    rw [h]
  · simp only [Badfs.BadFs.GetReadError]
    rw [h]
  · simp only [Badfs.BadFs.Chtimes]
    rw [h]
  · simp only [Badfs.BadFs.Chmod]
    rw [h]
  · simp only [Badfs.BadFs.Chown]
    rw [h]
  · simp only [Badfs.BadFs.Stat]
    rw [h]
  · simp only [Badfs.BadFs.LstatIfPossible]
    rw [h]
  · simp only [Badfs.BadFs.SymlinkIfPossible]
    rw [h]
  · simp only [Badfs.BadFs.ReadlinkIfPossible]
    rw [h]
  · simp only [Badfs.BadFs.Rename]
    rw [h]
  · simp only [Badfs.BadFs.RemoveAll]
    rw [h]
  · simp only [Badfs.BadFs.Remove]
    rw [h]
  · simp only [Badfs.BadFs.OpenFile]
    rw [h]
  · simp only [Badfs.BadFs.Open]
    rw [h]
  · simp only [Badfs.BadFs.Mkdir]
    rw [h]
  · simp only [Badfs.BadFs.MkdirAll]
    rw [h]
  · have hwop : r.writeOperation p1 = r.writeOperation p2 := by
      simp only [Badfs.BadFs.writeOperation]
      rw [h]
    rcases hw : r.writeOperation p2 with ⟨ds, we⟩
    rw [hw] at hwop
    cases we with
    | some err => simp [Badfs.BadFs.Create, hwop, hw]
    | none =>
      cases src with
      | some err => simp [Badfs.BadFs.Create, hwop, hw]
      | none => simp [Badfs.BadFs.Create, hwop, hw]

/-- C9 witness for the amended claim. -/
theorem C9_witness :
    (normalizePath "/x/../b" = normalizePath "/b")
    ∧ ((Badfs.New.AddReadError "/b" (some (GoError.user 2))).GetReadError "/x/../b"
      = (Badfs.New.AddReadError "/b" (some (GoError.user 2))).GetReadError "/b")
    ∧ (((Badfs.New.AddReadError "/b" (some (GoError.user 2))).Create "/x/../b" none).1
      = ((Badfs.New.AddReadError "/b" (some (GoError.user 2))).Create "/b" none).1) :=
  ⟨by decide,
    (C9_normalization (Badfs.New.AddReadError "/b" (some (GoError.user 2))) "/x/../b" "/b"
      "/n" none 1 none 0 false false (by decide)).2.2.2.2.2.2.2.2.1,
    (C9_normalization (Badfs.New.AddReadError "/b" (some (GoError.user 2))) "/x/../b" "/b"
      "/n" none 1 none 0 false false (by decide)).2.2.2.2.2.2.2.2.2.2.2.2.2.2.2.2.2.2.2.2.2.2.2⟩
